import Mathlib

/-!
Formal model of the NBA Injury Report extraction pipeline
(`injury_report_dashboard.py` and `validate_injury_report_csv.py`).

Strings are modelled as `List Char`.  Python string operations (`strip`,
`upper`, `lower`, `replace`, substring search, regular-expression search on
the concrete patterns used by the program) are given executable definitions
that follow CPython semantics on the ASCII fragment the program manipulates;
`\s` is modelled by the common whitespace characters (space, TAB, LF, CR,
VT, FF, NBSP) and `\w` by ASCII letters, digits and underscore.
-/

namespace InjuryReport

/-- Convert a string literal to the `List Char` representation used throughout. -/
def sl (s : String) : List Char := s.toList

/-- Apostrophe character (written by code point to keep sources plain). -/
def aposChar : Char := Char.ofNat 39

/-- Backquote character (written by code point to keep sources plain). -/
def backqChar : Char := Char.ofNat 96

/-- Python `\s` on the character set handled by the model. -/
def isPySpace (c : Char) : Bool :=
  c = ' ' || c = Char.ofNat 9 || c = Char.ofNat 10 || c = Char.ofNat 13 ||
  c = Char.ofNat 11 || c = Char.ofNat 12 || c = Char.ofNat 160

/-- ASCII uppercase letter. -/
def isUpperAZ (c : Char) : Bool := 'A' ≤ c && c ≤ 'Z'

/-- ASCII lowercase letter. -/
def isLowerAZ (c : Char) : Bool := 'a' ≤ c && c ≤ 'z'

/-- ASCII letter. -/
def isAsciiLetter (c : Char) : Bool := isUpperAZ c || isLowerAZ c

/-- ASCII digit. -/
def isDigitChar (c : Char) : Bool := '0' ≤ c && c ≤ '9'

/-- Python `\w` (word character) on the ASCII fragment. -/
def isWordChar (c : Char) : Bool := isAsciiLetter c || isDigitChar c || c = '_'

/-- Python `str.lower()` on the ASCII fragment. -/
def pyLower (s : List Char) : List Char := s.map Char.toLower

/-- Python `str.upper()` on the ASCII fragment. -/
def pyUpper (s : List Char) : List Char := s.map Char.toUpper

/-- Python `str.strip()` (strip whitespace from both ends). -/
def pyStrip (s : List Char) : List Char :=
  ((s.dropWhile (fun c => isPySpace c)).reverse.dropWhile (fun c => isPySpace c)).reverse

/-- Python `str.strip(chars)` for an explicit character set. -/
def pyStripChars (chars : List Char) (s : List Char) : List Char :=
  ((s.dropWhile (fun c => c ∈ chars)).reverse.dropWhile (fun c => c ∈ chars)).reverse

/-- Python `needle in haystack` (substring containment). -/
def containsSub : (haystack needle : List Char) → Bool
  | haystack, needle =>
    needle.isPrefixOf haystack ||
      match haystack with
      | [] => false
      | _ :: rest => containsSub rest needle

/-- Fuel-indexed worker for `pyReplace`; the fuel starts at the string length,
which bounds the number of scanning steps. -/
def pyReplaceAux : Nat → List Char → List Char → List Char → List Char
  | 0, s, _, _ => s
  | _ + 1, [], _, _ => []
  | fuel + 1, c :: rest, needle, repl =>
    if needle ≠ [] ∧ needle.isPrefixOf (c :: rest) then
      repl ++ pyReplaceAux fuel ((c :: rest).drop needle.length) needle repl
    else
      c :: pyReplaceAux fuel rest needle repl

/-- Replace every occurrence of a non-empty `needle` by `repl`
(Python `str.replace`, which scans left to right without overlap). -/
def pyReplace (s needle repl : List Char) : List Char :=
  pyReplaceAux s.length s needle repl

/-- Case-insensitive substring containment. -/
def ciContains (haystack needle : List Char) : Bool :=
  containsSub (pyLower haystack) (pyLower needle)

/-- Worker for `collapseWs`; the flag records whether the scan is inside a
whitespace run whose single replacement space has already been emitted. -/
def collapseWsAux : Bool → List Char → List Char
  | _, [] => []
  | inRun, c :: rest =>
    if isPySpace c then
      if inRun then collapseWsAux true rest
      else ' ' :: collapseWsAux true rest
    else c :: collapseWsAux false rest

/-- Collapse every maximal run of whitespace into one space
(the effect of `re.sub(r"\s+", " ", text)`). -/
def collapseWs (s : List Char) : List Char := collapseWsAux false s

/-- Numeric value of a digit list (Python `int` on a digit-only string). -/
def natOfDigits (s : List Char) : Nat :=
  s.foldl (fun acc c => acc * 10 + (c.toNat - 48)) 0

/-!
## Player-name normalization (`normalize_player_name_key`)

The source applies, in order: Unicode NFKD normalization and removal of
combining characters (the identity on the ASCII fragment modelled here),
`strip`, `lower`, replacement of NBSP by a space, removal of `.`, apostrophe
and backquote, replacement of `-` by a space, and collapsing of whitespace
runs to single spaces.
-/

/-- Characters removed by `re.sub(r"[.'`]", "", ...)`. -/
def nameKeyPunct : List Char := ['.', aposChar, backqChar]

/-- Model of `normalize_player_name_key` (the NFKD/combining stage is the
identity on the modelled ASCII fragment). -/
def normalizePlayerNameKey (value : List Char) : List Char :=
  let compact := pyLower (pyStrip value)
  let compact := pyReplace compact [Char.ofNat 160] [' ']
  let compact := compact.filter (fun c => decide (c ∉ nameKeyPunct))
  let compact := compact.map (fun c => if c = '-' then ' ' else c)
  collapseWs compact

/-!
## Derived statistics (`build_stats`)
-/

/-- Increment the counter stored under `key` in an insertion-ordered
association list (`dict.get(key, 0) + 1` followed by assignment). -/
def bumpCount (m : List (List Char × Nat)) (key : List Char) : List (List Char × Nat) :=
  match m with
  | [] => [(key, 1)]
  | (k, v) :: rest => if k = key then (k, v + 1) :: rest else (k, v) :: bumpCount rest key

/-- Result type of `build_stats`. -/
structure Stats where
  totalRows : Nat
  byStatus : List (List Char × Nat)
  byTeam : List (List Char × Nat)
deriving Repr, DecidableEq

/-- Row of the injury-report data model. -/
structure Row where
  gameTime : List Char
  matchup : List Char
  team : List Char
  player : List Char
  status : List Char
  reason : List Char
  page : Nat
  rowIndex : Nat
  gameDate : List Char
deriving Repr, DecidableEq

/-- Loop body of `build_stats`: bump the status and team counters, replacing
falsy (empty) values by `"Unknown"`. -/
def statsStep (acc : List (List Char × Nat) × List (List Char × Nat)) (row : Row) :
    List (List Char × Nat) × List (List Char × Nat) :=
  let status := if row.status ≠ [] then row.status else sl "Unknown"
  let team := if row.team ≠ [] then row.team else sl "Unknown"
  (bumpCount acc.1 status, bumpCount acc.2 team)

/-- Model of `build_stats`: counts by status and by team, with empty values
replaced by `"Unknown"`. -/
def buildStats (rows : List Row) : Stats :=
  let pair := rows.foldl statsStep ([], [])
  { totalRows := rows.length, byStatus := pair.1, byTeam := pair.2 }

/-- Total of the per-key counters. -/
def sumCounts (m : List (List Char × Nat)) : Nat :=
  (m.map (fun p => p.2)).sum

/-!
## Properties of the player-name key (claim C10)
-/

/-- Characters of a `dropWhile` result come from the original list. -/
theorem memDropWhile {c : Char} {p : Char → Bool} :
    ∀ {l : List Char}, c ∈ l.dropWhile p → c ∈ l := by
  intro l
  induction l with
  | nil => intro h; exact h
  | cons d rest ih =>
    intro h
    by_cases hp : p d
    · simp [List.dropWhile, hp] at h
      exact List.mem_cons_of_mem d (ih h)
    · simpa [List.dropWhile, hp] using h

/-- Characters of a stripped string come from the original string. -/
theorem memPyStrip {c : Char} {l : List Char} (h : c ∈ pyStrip l) : c ∈ l := by
  unfold pyStrip at h
  rw [List.mem_reverse] at h
  have h2 := memDropWhile h
  rw [List.mem_reverse] at h2
  exact memDropWhile h2

/-- Unfolding lemma: `collapseWsAux` on a whitespace head. -/
theorem collapseWsAuxConsWs {d : Char} {rest : List Char} (hd : isPySpace d = true) (b : Bool) :
    collapseWsAux b (d :: rest) =
      (if b then collapseWsAux true rest else ' ' :: collapseWsAux true rest) := by
  cases b <;> simp [collapseWsAux, hd]

/-- Unfolding lemma: `collapseWsAux` on a non-whitespace head. -/
theorem collapseWsAuxConsNonWs {d : Char} {rest : List Char} (hd : isPySpace d = false) (b : Bool) :
    collapseWsAux b (d :: rest) = d :: collapseWsAux false rest := by
  cases b <;> simp [collapseWsAux, hd]

/-- Characters produced by `collapseWsAux` come from the input or are spaces. -/
theorem memCollapseWsAux {c : Char} :
    ∀ (b : Bool) (s : List Char), c ∈ collapseWsAux b s → c ∈ s ∨ c = ' ' := by
  intro b s
  induction s generalizing b with
  | nil => intro h; simp [collapseWsAux] at h
  | cons d rest ih =>
    intro h
    by_cases hd : isPySpace d
    · rw [collapseWsAuxConsWs hd] at h
      cases b with
      | true =>
        rw [if_pos rfl] at h
        rcases ih true h with h1 | h1
        · exact Or.inl (List.mem_cons_of_mem d h1)
        · exact Or.inr h1
      | false =>
        rw [if_neg (by simp)] at h
        rcases List.mem_cons.mp h with h1 | h1
        · exact Or.inr h1
        · rcases ih true h1 with h2 | h2
          · exact Or.inl (List.mem_cons_of_mem d h2)
          · exact Or.inr h2
    · rw [collapseWsAuxConsNonWs (by simpa using hd)] at h
      rcases List.mem_cons.mp h with h1 | h1
      · exact Or.inl (by simp [h1])
      · rcases ih false h1 with h2 | h2
        · exact Or.inl (List.mem_cons_of_mem d h2)
        · exact Or.inr h2

/-- Whitespace characters in a `collapseWsAux` result are plain spaces. -/
theorem collapseWsAuxSpace {c : Char} :
    ∀ (b : Bool) (s : List Char), c ∈ collapseWsAux b s → isPySpace c = true → c = ' ' := by
  intro b s
  induction s generalizing b with
  | nil => intro h; simp [collapseWsAux] at h
  | cons d rest ih =>
    intro h hws
    by_cases hd : isPySpace d
    · rw [collapseWsAuxConsWs hd] at h
      cases b with
      | true =>
        rw [if_pos rfl] at h
        exact ih true h hws
      | false =>
        rw [if_neg (by simp)] at h
        rcases List.mem_cons.mp h with h1 | h1
        · exact h1
        · exact ih true h1 hws
    · rw [collapseWsAuxConsNonWs (by simpa using hd)] at h
      rcases List.mem_cons.mp h with h1 | h1
      · exact absurd (h1 ▸ hws) (by simpa using hd)
      · exact ih false h1 hws

/-- Neighbouring-characters relation: no two adjacent whitespace characters. -/
def noWsPair (x y : Char) : Prop := ¬(isPySpace x = true ∧ isPySpace y = true)

/-- After a run has been entered, the next emitted character is not whitespace. -/
theorem collapseWsAuxTrueHead {c : Char} :
    ∀ (s : List Char), (collapseWsAux true s).head? = some c → isPySpace c = false := by
  intro s
  induction s with
  | nil => intro h; simp [collapseWsAux] at h
  | cons d rest ih =>
    intro h
    by_cases hd : isPySpace d
    · rw [collapseWsAuxConsWs hd, if_pos rfl] at h
      exact ih h
    · rw [collapseWsAuxConsNonWs (by simpa using hd)] at h
      simp only [List.head?_cons, Option.some.injEq] at h
      simpa [← h] using hd

/-- The output of `collapseWsAux` has no two adjacent whitespace characters. -/
theorem collapseWsAuxChain :
    ∀ (b : Bool) (s : List Char), List.Chain' noWsPair (collapseWsAux b s) := by
  intro b s
  induction s generalizing b with
  | nil => simp [collapseWsAux]
  | cons d rest ih =>
    by_cases hd : isPySpace d
    · rw [collapseWsAuxConsWs hd]
      cases b with
      | true => simpa using ih true
      | false =>
        rw [if_neg (by simp)]
        rw [List.chain'_cons']
        refine ⟨?_, ih true⟩
        intro y hy
        have := collapseWsAuxTrueHead rest hy
        simp [noWsPair, this]
    · rw [collapseWsAuxConsNonWs (by simpa using hd)]
      rw [List.chain'_cons']
      refine ⟨?_, ih false⟩
      intro y hy
      simp only [noWsPair]
      intro hcontra
      exact absurd hcontra.1 (by simpa using hd)

/-- On a string whose whitespace is single spaces with no two adjacent,
collapsing is the identity. -/
theorem collapseWsAuxIdem :
    ∀ (l : List Char), (∀ c ∈ l, isPySpace c = true → c = ' ') → List.Chain' noWsPair l →
      collapseWsAux false l = l ∧
        ((∀ c, l.head? = some c → isPySpace c = false) → collapseWsAux true l = l) := by
  intro l
  induction l with
  | nil => intro _ _; simp [collapseWsAux]
  | cons d rest ih =>
    intro hsp hch
    have hch' := hch
    rw [List.chain'_cons'] at hch'
    obtain ⟨hhd, htl⟩ := hch'
    have ihr := ih (fun c hc => hsp c (List.mem_cons_of_mem d hc)) htl
    by_cases hd : isPySpace d
    · have hd' : d = ' ' := hsp d (List.mem_cons_self d rest) hd
      have hresthead : ∀ c, rest.head? = some c → isPySpace c = false := by
        intro c hc
        have hrel := hhd c hc
        simp only [noWsPair, hd] at hrel
        by_contra hcc
        simp only [Bool.not_eq_false] at hcc
        exact hrel ⟨trivial, hcc⟩
      constructor
      · rw [collapseWsAuxConsWs hd, if_neg (by simp), ihr.2 hresthead, hd']
      · intro hhead
        have := hhead d (by simp)
        rw [this] at hd
        exact absurd hd (by simp)
    · have hd0 : isPySpace d = false := by simpa using hd
      constructor
      · rw [collapseWsAuxConsNonWs hd0, ihr.1]
      · intro _
        rw [collapseWsAuxConsNonWs hd0, ihr.1]

/-- Characters of a `pyReplaceAux` result come from the input or the replacement. -/
theorem memPyReplaceAux {c : Char} :
    ∀ (fuel : Nat) (s needle repl : List Char),
      c ∈ pyReplaceAux fuel s needle repl → c ∈ s ∨ c ∈ repl := by
  intro fuel
  induction fuel with
  | zero => intro s _ _ h; exact Or.inl (by simpa [pyReplaceAux] using h)
  | succ n ih =>
    intro s needle repl h
    cases s with
    | nil => simp [pyReplaceAux] at h
    | cons d rest =>
      by_cases hp : needle ≠ [] ∧ needle.isPrefixOf (d :: rest)
      · rw [show pyReplaceAux (n + 1) (d :: rest) needle repl =
            repl ++ pyReplaceAux n ((d :: rest).drop needle.length) needle repl from by
              simp [pyReplaceAux, hp]] at h
        rcases List.mem_append.mp h with h1 | h1
        · exact Or.inr h1
        · rcases ih _ _ _ h1 with h2 | h2
          · exact Or.inl (List.mem_of_mem_drop h2)
          · exact Or.inr h2
      · rw [show pyReplaceAux (n + 1) (d :: rest) needle repl =
            d :: pyReplaceAux n rest needle repl from by
              simp only [pyReplaceAux]
              rw [if_neg hp]] at h
        rcases List.mem_cons.mp h with h1 | h1
        · exact Or.inl (by simp [h1])
        · rcases ih _ _ _ h1 with h2 | h2
          · exact Or.inl (List.mem_cons_of_mem d h2)
          · exact Or.inr h2

/-- Replacing a single absent character is the identity. -/
theorem pyReplaceAuxAbsent {a : Char} {r : List Char} :
    ∀ (fuel : Nat) (s : List Char), a ∉ s → pyReplaceAux fuel s [a] r = s := by
  intro fuel
  induction fuel with
  | zero => intro s _; simp [pyReplaceAux]
  | succ n ih =>
    intro s ha
    cases s with
    | nil => simp [pyReplaceAux]
    | cons d rest =>
      have hne : (a == d) = false := by
        simp only [beq_eq_false_iff_ne, ne_eq]
        intro h
        exact ha (h ▸ List.mem_cons_self d rest)
      have hpre : ([a].isPrefixOf (d :: rest)) = false := by
        simp [List.isPrefixOf, hne]
      rw [show pyReplaceAux (n + 1) (d :: rest) [a] r =
          d :: pyReplaceAux n rest [a] r from by simp [pyReplaceAux, hpre]]
      rw [ih rest (fun h => ha (List.mem_cons_of_mem d h))]

/-- Mapping a function that is the identity on every member is the identity. -/
theorem mapIdOn {g : Char → Char} :
    ∀ (l : List Char), (∀ c ∈ l, g c = c) → l.map g = l := by
  intro l
  induction l with
  | nil => intro _; simp
  | cons d rest ih =>
    intro h
    simp only [List.map_cons]
    rw [h d (by simp), ih (fun c hc => h c (List.mem_cons_of_mem d hc))]

/-- `Chain\'` survives `dropWhile`. -/
theorem chainDropWhile {R : Char → Char → Prop} {p : Char → Bool} :
    ∀ {l : List Char}, List.Chain' R l → List.Chain' R (l.dropWhile p) := by
  intro l
  induction l with
  | nil => intro h; exact h
  | cons d rest ih =>
    intro h
    by_cases hp : p d
    · simp only [List.dropWhile, hp]
      exact ih h.tail
    · simpa [List.dropWhile, hp] using h

/-- The no-adjacent-whitespace chain survives list reversal. -/
theorem chainReverseNoWs {l : List Char} (h : List.Chain' noWsPair l) :
    List.Chain' noWsPair l.reverse := by
  rw [List.chain'_reverse]
  exact h.imp (fun a b hab => by
    simp only [flip, noWsPair] at *
    tauto)

/-- The no-adjacent-whitespace chain survives stripping. -/
theorem chainPyStrip {l : List Char} (h : List.Chain' noWsPair l) :
    List.Chain' noWsPair (pyStrip l) := by
  unfold pyStrip
  exact chainReverseNoWs (chainDropWhile (chainReverseNoWs (chainDropWhile h)))

/-- Idempotence of `Char.toLower`. -/
theorem toLowerIdem (c : Char) : c.toLower.toLower = c.toLower := by
  unfold Char.toLower
  by_cases h : c.toNat ≥ 65 ∧ c.toNat ≤ 90
  · rw [if_pos h]
    have ht : (Char.ofNat (c.toNat + 32)).toNat = c.toNat + 32 := by
      unfold Char.ofNat
      rw [dif_pos (Or.inl (by omega : c.toNat + 32 < 55296))]
      simp [Char.toNat, Char.ofNatAux, UInt32.toNat, BitVec.toNat_ofNatLt]
    rw [ht, if_neg (by omega)]
  · rw [if_neg h, if_neg h]

/-- Character-level facts about every character of a player-name key:
lower-casing fixes it, it is not a removed punctuation character, and it is
not a hyphen. -/
theorem nameKeyMemFacts {s : List Char} {c : Char} (hc : c ∈ normalizePlayerNameKey s) :
    Char.toLower c = c ∧ c ∉ nameKeyPunct ∧ c ≠ '-' := by
  simp only [normalizePlayerNameKey, collapseWs] at hc
  rcases memCollapseWsAux false _ hc with hu | hsp
  · rcases List.mem_map.mp hu with ⟨d, hd, hcd⟩
    have hdq : d ∉ nameKeyPunct := by
      have := (List.mem_filter.mp hd).2
      simpa using this
    have hdm := (List.mem_filter.mp hd).1
    by_cases hdh : d = '-'
    · rw [← hcd, hdh]
      refine ⟨by decide, by decide, by decide⟩
    · have hcd' : c = d := by rw [← hcd]; simp [hdh]
      subst hcd'
      refine ⟨?_, hdq, hdh⟩
      simp only [pyReplace] at hdm
      rcases memPyReplaceAux _ _ _ _ hdm with hw | hr
      · rcases List.mem_map.mp hw with ⟨e, _, hde⟩
        rw [← hde]
        exact toLowerIdem e
      · have : c = ' ' := by simpa using hr
        rw [this]; decide
  · rw [hsp]
    refine ⟨by decide, by decide, by decide⟩

/-- Whitespace characters of a player-name key are plain spaces. -/
theorem nameKeyWsFacts {s : List Char} {c : Char} (hc : c ∈ normalizePlayerNameKey s)
    (hws : isPySpace c = true) : c = ' ' := by
  simp only [normalizePlayerNameKey, collapseWs] at hc
  exact collapseWsAuxSpace false _ hc hws

/-- A player-name key has no two adjacent whitespace characters. -/
theorem nameKeyChain (s : List Char) : List.Chain' noWsPair (normalizePlayerNameKey s) := by
  simp only [normalizePlayerNameKey, collapseWs]
  exact collapseWsAuxChain false _

/-- Claim C10 (counterexample): the player-name normalization is not
idempotent; on `"a-"` the first pass yields `"a "` (trailing space from the
hyphen replacement) and the second pass strips it. -/
theorem c10_counterexample :
    normalizePlayerNameKey (normalizePlayerNameKey (sl "a-")) ≠
      normalizePlayerNameKey (sl "a-") := by
  decide

/-- Claim C10 (amended): applying `normalize_player_name_key` twice equals
applying it once followed by `strip`; in particular the function is
idempotent exactly on inputs whose key has no leading or trailing space. -/
theorem c10_amended (s : List Char) :
    normalizePlayerNameKey (normalizePlayerNameKey s) =
      pyStrip (normalizePlayerNameKey s) := by
  have hmem : ∀ c ∈ normalizePlayerNameKey s,
      Char.toLower c = c ∧ c ∉ nameKeyPunct ∧ c ≠ '-' := fun c hc => nameKeyMemFacts hc
  have hws : ∀ c ∈ normalizePlayerNameKey s, isPySpace c = true → c = ' ' :=
    fun c hc h => nameKeyWsFacts hc h
  have hchain := nameKeyChain s
  have hxsub : ∀ c ∈ pyStrip (normalizePlayerNameKey s), c ∈ normalizePlayerNameKey s :=
    fun c hc => memPyStrip hc
  have s1 : pyLower (pyStrip (normalizePlayerNameKey s)) = pyStrip (normalizePlayerNameKey s) :=
    mapIdOn _ (fun c hc => (hmem c (hxsub c hc)).1)
  have s2 : pyReplace (pyStrip (normalizePlayerNameKey s)) [Char.ofNat 160] [' '] =
      pyStrip (normalizePlayerNameKey s) := by
    unfold pyReplace
    apply pyReplaceAuxAbsent
    intro habs
    have h1 := hws _ (hxsub _ habs) (by decide)
    exact absurd h1 (by decide)
  have s3 : (pyStrip (normalizePlayerNameKey s)).filter (fun c => decide (c ∉ nameKeyPunct)) =
      pyStrip (normalizePlayerNameKey s) := by
    rw [List.filter_eq_self]
    intro c hc
    simp [(hmem c (hxsub c hc)).2.1]
  have s4 : (pyStrip (normalizePlayerNameKey s)).map (fun c => if c = '-' then ' ' else c) =
      pyStrip (normalizePlayerNameKey s) :=
    mapIdOn _ (fun c hc => by simp [(hmem c (hxsub c hc)).2.2])
  have s5 : collapseWs (pyStrip (normalizePlayerNameKey s)) =
      pyStrip (normalizePlayerNameKey s) := by
    unfold collapseWs
    exact (collapseWsAuxIdem _ (fun c hc => hws c (hxsub c hc)) (chainPyStrip hchain)).1
  conv_lhs => rw [normalizePlayerNameKey]
  rw [s1, s2, s3, s4, s5]

/-!
## Statistics totals (claim C9)
-/

/-- Bumping a counter raises the total by exactly one. -/
theorem sumCountsBump (m : List (List Char × Nat)) (key : List Char) :
    sumCounts (bumpCount m key) = sumCounts m + 1 := by
  induction m with
  | nil => simp [bumpCount, sumCounts]
  | cons p rest ih =>
    obtain ⟨k, v⟩ := p
    by_cases hk : k = key
    · simp [bumpCount, hk, sumCounts]
      omega
    · simp only [bumpCount, hk, if_false, sumCounts, List.map_cons, List.sum_cons]
      have := ih
      simp only [sumCounts] at this
      omega

/-- The fold underlying `build_stats` adds one to each total per row. -/
theorem statsFoldSum (rows : List Row) :
    ∀ acc : List (List Char × Nat) × List (List Char × Nat),
      sumCounts (rows.foldl statsStep acc).1 = sumCounts acc.1 + rows.length ∧
      sumCounts (rows.foldl statsStep acc).2 = sumCounts acc.2 + rows.length := by
  induction rows with
  | nil => intro acc; simp
  | cons row rest ih =>
    intro acc
    simp only [List.foldl_cons, List.length_cons]
    have h := ih (statsStep acc row)
    have h1 : sumCounts (statsStep acc row).1 = sumCounts acc.1 + 1 := by
      simp [statsStep, sumCountsBump]
    have h2 : sumCounts (statsStep acc row).2 = sumCounts acc.2 + 1 := by
      simp [statsStep, sumCountsBump]
    omega

/-- Claim C9 (confirmed): `build_stats` reports `totalRows` equal to the
number of input rows, and both the by-status and the by-team counters sum to
that same total (missing values being counted under `"Unknown"`). -/
theorem c9_build_stats_totals (rows : List Row) :
    (buildStats rows).totalRows = rows.length ∧
      sumCounts (buildStats rows).byStatus = rows.length ∧
      sumCounts (buildStats rows).byTeam = rows.length := by
  have h := statsFoldSum rows ([], [])
  simp only [sumCounts, List.map_nil, List.sum_nil] at h
  refine ⟨rfl, ?_, ?_⟩
  · simpa [buildStats, sumCounts] using h.1
  · simpa [buildStats, sumCounts] using h.2

/-!
## Filename timestamp parsing (`parse_pdf_time_parts`, `parse_pdf_datetime`,
`parse_pdf_time_label`)

The filename regular expression is
`Injury-Report_(\\d{4}-\\d{2}-\\d{2})_([0-9_:\\-]{1,8})(AM|PM)` with
`re.IGNORECASE`, searched inside `url.split("/")[-1]`.  The time-digit class
contains no letters, so the bounded greedy quantifier matches exactly the
maximal run of class characters (of length 1 to 8) followed by the meridiem.
-/

/-- Python `url.split("/")[-1]`. -/
def splitLastSlash (url : List Char) : List Char :=
  url.foldl (fun acc c => if c = '/' then [] else acc ++ [c]) []

/-- Characters matched by the `[0-9_:\\-]` class of the filename pattern. -/
def isTimeClassChar (c : Char) : Bool :=
  isDigitChar c || c = '_' || c = ':' || c = '-'

/-- Case-insensitive literal match at the head of a string, returning the
remainder on success. -/
def ciMatchLit : List Char → List Char → Option (List Char)
  | [], s => some s
  | _ :: _, [] => none
  | l :: ls, c :: cs => if l.toLower = c.toLower then ciMatchLit ls cs else none

/-- Take exactly `n` digits from the head of a string. -/
def takeExactDigits : Nat → List Char → Option (List Char × List Char)
  | 0, s => some ([], s)
  | _ + 1, [] => none
  | n + 1, c :: rest =>
    if isDigitChar c then
      match takeExactDigits n rest with
      | some (d, r) => some (c :: d, r)
      | none => none
    else none

/-- Match the filename pattern anchored at the head of `s`, returning the
three capture groups (date, raw time, meridiem as matched). -/
def injuryReportMatchAt (s : List Char) : Option (List Char × List Char × List Char) :=
  match ciMatchLit (sl "Injury-Report_") s with
  | none => none
  | some r1 =>
    match takeExactDigits 4 r1 with
    | none => none
    | some (y, r2) =>
      match r2 with
      | '-' :: r3 =>
        match takeExactDigits 2 r3 with
        | none => none
        | some (mo, r4) =>
          match r4 with
          | '-' :: r5 =>
            match takeExactDigits 2 r5 with
            | none => none
            | some (d, r6) =>
              match r6 with
              | '_' :: r7 =>
                let run := r7.takeWhile (fun c => isTimeClassChar c)
                if run.length < 1 ∨ run.length > 8 then none
                else
                  let after := r7.drop run.length
                  match ciMatchLit (sl "AM") after, ciMatchLit (sl "PM") after with
                  | some _, _ => some (y ++ ['-'] ++ mo ++ ['-'] ++ d, run, after.take 2)
                  | none, some _ => some (y ++ ['-'] ++ mo ++ ['-'] ++ d, run, after.take 2)
                  | none, none => none
              | _ => none
          | _ => none
      | _ => none

/-- Leftmost match of the filename pattern (`re.search`). -/
def injuryReportSearch : List Char → Option (List Char × List Char × List Char)
  | [] => none
  | c :: rest =>
    match injuryReportMatchAt (c :: rest) with
    | some g => some g
    | none => injuryReportSearch rest

/-- Result of `parse_pdf_time_parts`. -/
structure TimeParts where
  dateStr : List Char
  hour : Nat
  minutes : Nat
  meridiem : List Char
deriving Repr, DecidableEq

/-- Model of `parse_pdf_time_parts`: extract `(date, hour, minute, meridiem)`
from a document URL, rejecting hours outside 1 to 12 and minutes outside 0 to
59 (the lower minute bound is vacuous over `Nat`). -/
def parsePdfTimeParts (url : List Char) : Option TimeParts :=
  match injuryReportSearch (splitLastSlash url) with
  | none => none
  | some (dateStr, rawTime, mer) =>
    let digits := rawTime.filter (fun c => isDigitChar c)
    if digits = [] then none
    else
      let hour := if digits.length ≤ 2 then natOfDigits digits
        else natOfDigits (digits.take (digits.length - 2))
      let minutes := if digits.length ≤ 2 then 0
        else natOfDigits (digits.drop (digits.length - 2))
      if hour < 1 ∨ hour > 12 ∨ minutes > 59 then none
      else some ⟨dateStr, hour, minutes, pyUpper mer⟩

/-- Gregorian leap year. -/
def isLeapYear (y : Nat) : Bool :=
  (y % 4 = 0 && y % 100 ≠ 0) || y % 400 = 0

/-- Number of days in a month. -/
def daysInMonth (y mo : Nat) : Nat :=
  if mo = 2 then (if isLeapYear y then 29 else 28)
  else if mo = 4 ∨ mo = 6 ∨ mo = 9 ∨ mo = 11 then 30
  else 31

/-- Validity check performed by `datetime.strptime` on `%Y-%m-%d` input. -/
def validDate (y mo d : Nat) : Bool :=
  1 ≤ y && y ≤ 9999 && 1 ≤ mo && mo ≤ 12 && 1 ≤ d && d ≤ daysInMonth y mo

/-- Days between 1970-01-01 and the given civil date (Hinnant algorithm). -/
def daysFromCivil (y mo d : Nat) : Int :=
  let yAdj : Int := if mo ≤ 2 then (y : Int) - 1 else (y : Int)
  let era : Int := (if 0 ≤ yAdj then yAdj else yAdj - 399) / 400
  let yoe : Int := yAdj - era * 400
  let mp : Int := ((mo : Int) + 9) % 12
  let doy : Int := (153 * mp + 2) / 5 + (d : Int) - 1
  let doe : Int := yoe * 365 + yoe / 4 - yoe / 100 + doy
  era * 146097 + doe - 719468

/-- Epoch value of a naive local datetime (`datetime(...).timestamp()`); the
local UTC offset in seconds is a model parameter. -/
def pyTimestamp (y mo d h mi : Nat) (tz : Int) : Int :=
  daysFromCivil y mo d * 86400 + (h : Int) * 3600 + (mi : Int) * 60 - tz

/-- Conversion of a 1-12 hour with meridiem to a 24-hour value, as performed
by `parse_pdf_datetime`. -/
def to24Hour (hour : Nat) (mer : List Char) : Nat :=
  let h1 := if mer = sl "PM" ∧ hour < 12 then hour + 12 else hour
  if mer = sl "AM" ∧ h1 = 12 then 0 else h1

/-- First and second components of the `%Y-%m-%d` date group. -/
def parseDateGroups (dateStr : List Char) : Nat × Nat × Nat :=
  (natOfDigits (dateStr.take 4),
    natOfDigits ((dateStr.drop 5).take 2),
    natOfDigits (dateStr.drop 8))

/-- Model of `parse_pdf_datetime`: epoch value of the parsed filename
timestamp, or the zero sentinel on any parse failure (no match, hour or
minute out of range, or a date rejected by `strptime`). -/
def parsePdfDatetime (url : List Char) (tz : Int) : Int :=
  match parsePdfTimeParts url with
  | none => 0
  | some p =>
    let g := parseDateGroups p.dateStr
    if validDate g.1 g.2.1 g.2.2 then
      pyTimestamp g.1 g.2.1 g.2.2 (to24Hour p.hour p.meridiem) p.minutes tz
    else 0

/-- Two-digit zero-padded decimal rendering (`f"{n:02d}"` for small `n`). -/
def format02 (n : Nat) : List Char :=
  if n < 10 then '0' :: Nat.toDigits 10 n else Nat.toDigits 10 n

/-- Model of `parse_pdf_time_label`: `"HH:MM AM ET"`-style label, or the
empty string when the filename does not parse. -/
def parsePdfTimeLabel (url : List Char) : List Char :=
  match parsePdfTimeParts url with
  | none => []
  | some p => format02 p.hour ++ [':'] ++ format02 p.minutes ++ [' '] ++ p.meridiem ++ sl " ET"

/-- Claim C6 (counterexample): with the filename written exactly as in the
claim, `Report_2026-02-08_03-45AM.pdf` (without the `Injury-` half of the
convention), the parser matches nothing: the label is empty, not
`"03:45 AM ET"`, and the epoch is the zero sentinel, not positive. -/
theorem c6_counterexample :
    parsePdfTimeLabel (sl "https://official.nba.com/Report_2026-02-08_03-45AM.pdf") ≠
        sl "03:45 AM ET" ∧
      parsePdfDatetime (sl "https://official.nba.com/Report_2026-02-08_03-45AM.pdf") 0 = 0 := by
  decide

/-- Claim C6 (amended): for the convention as implemented,
`Injury-Report_2026-02-08_03-45AM.pdf`, the report-time label is
`"03:45 AM ET"` and the epoch value is strictly positive for every local UTC
offset of at most half a day. -/
theorem c6_amended (tz : Int) (htz : -43200 ≤ tz ∧ tz ≤ 43200) :
    parsePdfTimeLabel (sl "https://official.nba.com/Injury-Report_2026-02-08_03-45AM.pdf") =
        sl "03:45 AM ET" ∧
      0 < parsePdfDatetime (sl "https://official.nba.com/Injury-Report_2026-02-08_03-45AM.pdf") tz := by
  refine ⟨by decide, ?_⟩
  have h : parsePdfDatetime
      (sl "https://official.nba.com/Injury-Report_2026-02-08_03-45AM.pdf") tz =
      1770522300 - tz := by
    show pyTimestamp 2026 2 8 3 45 tz = 1770522300 - tz
    unfold pyTimestamp
    have hd : daysFromCivil 2026 2 8 = 20492 := by decide
    rw [hd]
    norm_num
  rw [h]
  omega

/-- Witness for `c6_amended` at the zero offset. -/
theorem c6_amended_witness :
    ((-43200 : Int) ≤ 0 ∧ (0 : Int) ≤ 43200) ∧
      (parsePdfTimeLabel (sl "https://official.nba.com/Injury-Report_2026-02-08_03-45AM.pdf") =
          sl "03:45 AM ET" ∧
        0 < parsePdfDatetime
          (sl "https://official.nba.com/Injury-Report_2026-02-08_03-45AM.pdf") 0) :=
  ⟨by norm_num, c6_amended 0 (by norm_num)⟩

/-- Claim C7 (confirmed): the timestamp parser is total (it is a function in
this model and returns the zero sentinel rather than raising): it returns 0
whenever the filename does not match, and whenever it does match, the
extracted hour lies in 1..12 and the minutes in 0..59, and the result is the
epoch value of the 24-hour conversion, with the zero sentinel also covering
dates rejected by `strptime`. -/
theorem c7_timestamp_total (url : List Char) (tz : Int) :
    (parsePdfTimeParts url = none → parsePdfDatetime url tz = 0) ∧
    (∀ p, parsePdfTimeParts url = some p →
      (1 ≤ p.hour ∧ p.hour ≤ 12 ∧ p.minutes ≤ 59) ∧
      parsePdfDatetime url tz =
        (if validDate (parseDateGroups p.dateStr).1 (parseDateGroups p.dateStr).2.1
            (parseDateGroups p.dateStr).2.2 then
          pyTimestamp (parseDateGroups p.dateStr).1 (parseDateGroups p.dateStr).2.1
            (parseDateGroups p.dateStr).2.2 (to24Hour p.hour p.meridiem) p.minutes tz
        else 0)) := by
  constructor
  · intro h
    simp [parsePdfDatetime, h]
  · intro p hp
    refine ⟨?_, by simp [parsePdfDatetime, hp]⟩
    unfold parsePdfTimeParts at hp
    cases hs : injuryReportSearch (splitLastSlash url) with
    | none => rw [hs] at hp; exact absurd hp (by simp)
    | some g =>
      obtain ⟨dateStr, rawTime, mer⟩ := g
      rw [hs] at hp
      simp only at hp
      split_ifs at hp with h1 h2 h3 h4
      all_goals simp only [Option.some.injEq, reduceCtorEq] at hp
      all_goals
        subst hp
        dsimp only
        omega

/-- Witness for `c7_timestamp_total`, discharging both hypotheses at
concrete URLs. -/
theorem c7_witness :
    parsePdfDatetime (sl "report.pdf") 0 = 0 ∧
      (1 ≤ (3 : Nat) ∧ (3 : Nat) ≤ 12 ∧ (45 : Nat) ≤ 59) := by
  refine ⟨(c7_timestamp_total (sl "report.pdf") 0).1 (by decide), ?_⟩
  have h := ((c7_timestamp_total
      (sl "https://x.com/Injury-Report_2026-02-08_03-45AM.pdf") 0).2
      ⟨sl "2026-02-08", 3, 45, sl "AM"⟩ (by decide)).1
  exact h

/-!
## Cache controller (`get_cached_report`, claim C3)

The controller is modelled as a state transition.  Network effects are
oracle parameters: `now` is the single `time.time()` reading, `probe` is the
outcome of the `fetch_latest_pdf_link` call of the freshness probe (an
exception or an optional URL), and `fetched` is the payload produced by the
full pipeline run `fetch_injury_report()` (used only when the control flow
reaches it).  Payload dictionaries are always truthy in the source, so the
cached-slot truthiness test is modelled by `Option.isSome`.
-/

/-- Payload as seen by the cache controller: the `ok` flag and the document
URL used by the freshness probe, plus the data fields. -/
structure CachePayload where
  ok : Bool
  pdfUrl : List Char
  stats : Stats
  rows : List Row
deriving Repr, DecidableEq

/-- The module-level `CACHE_STATE` dictionary. -/
structure CacheState where
  data : Option CachePayload
  lastUpdated : Int
deriving Repr, DecidableEq

/-- The tail of `get_cached_report` from the `fetch_injury_report()` call on:
store the payload (with the `now` read at entry) only when it is `ok`. -/
def cacheRefresh (now : Int) (fetched : CachePayload) (st : CacheState) :
    CachePayload × CacheState :=
  if fetched.ok then (fetched, { data := some fetched, lastUpdated := now })
  else (fetched, st)

/-- Model of `get_cached_report`. -/
def getCachedReport (force : Bool) (now ttl tz : Int)
    (probe : Except Unit (Option (List Char))) (fetched : CachePayload)
    (st : CacheState) : CachePayload × CacheState :=
  match st.data with
  | some cached =>
    if force = false ∧ now - st.lastUpdated < ttl then
      match probe with
      | Except.error _ => (cached, st)
      | Except.ok latestUrl =>
        let cachedTs := parsePdfDatetime cached.pdfUrl tz
        let latestStr := match latestUrl with | some u => u | none => []
        let latestTs := parsePdfDatetime latestStr tz
        if latestStr ≠ [] ∧ latestTs > cachedTs then cacheRefresh now fetched st
        else (cached, st)
    else cacheRefresh now fetched st
  | none => cacheRefresh now fetched st

/-- Claim C3 (confirmed): a failed pipeline run never changes the cache
slot or its timestamp; the caller receives either the failure payload (when
the pipeline ran) or the previously cached payload (when the probe served
the cache, in which case the pipeline never ran); and the slot is replaced
only by a payload with `ok = true`. -/
theorem c3_cache_failure_not_stored (force : Bool) (now ttl tz : Int)
    (probe : Except Unit (Option (List Char))) (fetched : CachePayload)
    (st : CacheState) :
    (fetched.ok = false →
      (getCachedReport force now ttl tz probe fetched st).2 = st ∧
        ((getCachedReport force now ttl tz probe fetched st).1 = fetched ∨
          ∃ cached, st.data = some cached ∧
            (getCachedReport force now ttl tz probe fetched st).1 = cached)) ∧
    ((getCachedReport force now ttl tz probe fetched st).2 ≠ st → fetched.ok = true ∧
      (getCachedReport force now ttl tz probe fetched st).2 =
        { data := some fetched, lastUpdated := now }) := by
  constructor
  · intro hfail
    cases hd : st.data with
    | none =>
      simp [getCachedReport, hd, cacheRefresh, hfail]
    | some cached =>
      simp only [getCachedReport, hd]
      split_ifs with h1
      · cases probe with
        | error e => exact ⟨rfl, Or.inr ⟨cached, rfl, rfl⟩⟩
        | ok latestUrl =>
          simp only
          split_ifs with h3
          · simp [cacheRefresh, hfail]
          · exact ⟨rfl, Or.inr ⟨cached, rfl, rfl⟩⟩
      · simp [cacheRefresh, hfail]
  · intro hchanged
    cases hd : st.data with
    | none =>
      rw [getCachedReport] at hchanged ⊢
      simp only [hd] at hchanged ⊢
      by_cases hok : fetched.ok
      · simp [cacheRefresh, hok]
      · simp [cacheRefresh, hok] at hchanged
    | some cached =>
      rw [getCachedReport] at hchanged ⊢
      simp only [hd] at hchanged ⊢
      by_cases hok : fetched.ok
      · refine ⟨hok, ?_⟩
        split_ifs at hchanged ⊢ with h1
        · cases probe with
          | error e => simp at hchanged
          | ok latestUrl =>
            simp only at hchanged ⊢
            split_ifs at hchanged ⊢ with h3
            · simp [cacheRefresh, hok]
            · simp at hchanged
        · simp [cacheRefresh, hok]
      · exfalso
        apply hchanged
        split_ifs with h1
        · cases probe with
          | error e => rfl
          | ok latestUrl =>
            simp only
            split_ifs with h3
            · simp [cacheRefresh, hok]
            · rfl
        · simp [cacheRefresh, hok]

/-- Witness for `c3_cache_failure_not_stored`: a failing payload against an
empty cache is returned directly and the state is unchanged. -/
theorem c3_witness :
    (getCachedReport false 0 3600 0 (Except.error ())
        ⟨false, [], ⟨0, [], []⟩, []⟩ ⟨none, 0⟩).2 = ⟨none, 0⟩ ∧
      ((getCachedReport false 0 3600 0 (Except.error ())
          ⟨false, [], ⟨0, [], []⟩, []⟩ ⟨none, 0⟩).1 = ⟨false, [], ⟨0, [], []⟩, []⟩ ∨
        ∃ cached, (⟨none, 0⟩ : CacheState).data = some cached ∧
          (getCachedReport false 0 3600 0 (Except.error ())
            ⟨false, [], ⟨0, [], []⟩, []⟩ ⟨none, 0⟩).1 = cached) :=
  (c3_cache_failure_not_stored false 0 3600 0 (Except.error ())
    ⟨false, [], ⟨0, [], []⟩, []⟩ ⟨none, 0⟩).1 rfl

/-!
## Regular-expression predicates of the deduplicator and reconciler

Each concrete pattern of the source is implemented as a deterministic
matcher anchored at a position (the patterns back-track only in ways that
provably reduce to maximal-run scanning, noted per matcher), plus generic
scanners for `search`, `sub`, and `findall`.  A matcher receives the
character preceding the position (for `\b`) and the suffix, and returns the
remainder after the match.
-/

/-- Word-boundary test before a word character: start of string or a
non-word predecessor. -/
def wordBoundBefore (prev : Option Char) : Bool :=
  match prev with
  | none => true
  | some c => !isWordChar c

/-- Word-boundary test after a word character: end of string or a non-word
successor. -/
def wordBoundAfter (rest : List Char) : Bool :=
  match rest with
  | [] => true
  | c :: _ => !isWordChar c

/-- Character class `[A-Za-z'`.\-]` of the player/status blob patterns. -/
def isNameClassChar (c : Char) : Bool :=
  isAsciiLetter c || c = aposChar || c = backqChar || c = '.' || c = '-'

/-- Matcher for `Not\s*With\s*Team` (case-insensitive). -/
def matchNotWsTeam (s : List Char) : Option (List Char) :=
  match ciMatchLit (sl "Not") s with
  | none => none
  | some r1 =>
    match ciMatchLit (sl "With") (r1.dropWhile (fun c => isPySpace c)) with
    | none => none
    | some r2 => ciMatchLit (sl "Team") (r2.dropWhile (fun c => isPySpace c))

/-- Remainders after each alternative of the status alternation
`(Out|Questionable|Doubtful|Probable|Available|Not\s*With\s*Team|NotWithTeam)`,
in alternation order. -/
def statusAltRems (s : List Char) : List (List Char) :=
  [ciMatchLit (sl "Out") s, ciMatchLit (sl "Questionable") s,
    ciMatchLit (sl "Doubtful") s, ciMatchLit (sl "Probable") s,
    ciMatchLit (sl "Available") s, matchNotWsTeam s,
    ciMatchLit (sl "NotWithTeam") s].filterMap id

/-- Matcher for the player/status blob pattern
`[A-Z][A-Za-z'`.\-]+,\s*[A-Z][A-Za-z'`.\-]+\s+(status)` under `re.I`, with
configurable leading and trailing `\b` (present in the reconciler pattern,
absent in the deduplicator pattern).  The name-class runs are maximal since
the class excludes the comma and whitespace; the status alternation retries
alternatives when the trailing boundary fails. -/
def psBlobM (startB endB : Bool) (prev : Option Char) (s : List Char) :
    Option (List Char) :=
  if startB && !wordBoundBefore prev then none
  else
    match s with
    | [] => none
    | c0 :: r0 =>
      if !isAsciiLetter c0 then none
      else
        let run1 := r0.takeWhile (fun c => isNameClassChar c)
        if run1.length < 1 then none
        else
          match r0.drop run1.length with
          | ',' :: r2 =>
            match r2.dropWhile (fun c => isPySpace c) with
            | [] => none
            | c1 :: r4 =>
              if !isAsciiLetter c1 then none
              else
                let run2 := r4.takeWhile (fun c => isNameClassChar c)
                if run2.length < 1 then none
                else
                  let r5 := r4.drop run2.length
                  let ws := r5.takeWhile (fun c => isPySpace c)
                  if ws.length < 1 then none
                  else
                    (statusAltRems (r5.drop ws.length)).find?
                      (fun rem => !endB || wordBoundAfter rem)
          | _ => none

/-- Matcher for `\bPage\s*\d+\s*of\s*\d+\b` under `re.I` (the second
alternative `\bPage\d+of\d+\b` is subsumed by the first).  Digit and
whitespace runs are maximal, so no back-tracking arises. -/
def pageMarkerM (prev : Option Char) (s : List Char) : Option (List Char) :=
  if !wordBoundBefore prev then none
  else
    match ciMatchLit (sl "Page") s with
    | none => none
    | some r1 =>
      let r2 := r1.dropWhile (fun c => isPySpace c)
      let d1 := r2.takeWhile (fun c => isDigitChar c)
      if d1.length < 1 then none
      else
        let r3 := (r2.drop d1.length).dropWhile (fun c => isPySpace c)
        match ciMatchLit (sl "of") r3 with
        | none => none
        | some r4 =>
          let r5 := r4.dropWhile (fun c => isPySpace c)
          let d2 := r5.takeWhile (fun c => isDigitChar c)
          if d2.length < 1 then none
          else
            let r6 := r5.drop d2.length
            if wordBoundAfter r6 then some r6 else none

/-- Matcher for `\b\d{2}/\d{2}/\d{4}\b` (the date alternative). -/
def dateBlobM (prev : Option Char) (s : List Char) : Option (List Char) :=
  if !wordBoundBefore prev then none
  else
    match takeExactDigits 2 s with
    | none => none
    | some (_, r1) =>
      match r1 with
      | '/' :: r2 =>
        match takeExactDigits 2 r2 with
        | none => none
        | some (_, r3) =>
          match r3 with
          | '/' :: r4 =>
            match takeExactDigits 4 r4 with
            | none => none
            | some (_, r5) => if wordBoundAfter r5 then some r5 else none
          | _ => none
      | _ => none

/-- Matcher for `\b\d{1,2}:\d{2}\s*\(ET\)\b` under `re.I`.  Because the
closing parenthesis is not a word character, the trailing `\b` holds exactly
when a word character follows immediately. -/
def timeEtBlobM (prev : Option Char) (s : List Char) : Option (List Char) :=
  if !wordBoundBefore prev then none
  else
    let hourRem : Option (List Char) :=
      match takeExactDigits 2 s with
      | some (_, ':' :: r) => some (':' :: r)
      | _ =>
        match takeExactDigits 1 s with
        | some (_, ':' :: r) => some (':' :: r)
        | _ => none
    match hourRem with
    | some (':' :: r2) =>
      match takeExactDigits 2 r2 with
      | none => none
      | some (_, r3) =>
        match ciMatchLit (sl "(ET)") (r3.dropWhile (fun c => isPySpace c)) with
        | none => none
        | some r4 =>
          match r4 with
          | c :: _ => if isWordChar c then some r4 else none
          | [] => none
    | _ => none

/-- Matcher for the matchup pattern `\b[A-Z]{2,4}\s*@\s*[A-Z]{2,4}\b`; the
`ci` flag selects the `re.I` variant used by the deduplicator (the
reconciler compiles it case-sensitively).  Letter runs are maximal: a
shorter greedy choice leaves a letter where `@` or the trailing boundary is
required. -/
def matchupBlobM (ci : Bool) (prev : Option Char) (s : List Char) :
    Option (List Char) :=
  let isLetter := fun c => if ci then isAsciiLetter c else isUpperAZ c
  if !wordBoundBefore prev then none
  else
    let run1 := s.takeWhile isLetter
    if run1.length < 2 ∨ run1.length > 4 then none
    else
      match (s.drop run1.length).dropWhile (fun c => isPySpace c) with
      | '@' :: r2 =>
        let r3 := r2.dropWhile (fun c => isPySpace c)
        let run2 := r3.takeWhile isLetter
        if run2.length < 2 ∨ run2.length > 4 then none
        else
          let r4 := r3.drop run2.length
          if wordBoundAfter r4 then some r4 else none
      | _ => none

/-- Matcher for `\b(status)\b` (the reconciler status-blob counter). -/
def statusBlobTokenM (prev : Option Char) (s : List Char) : Option (List Char) :=
  if !wordBoundBefore prev then none
  else (statusAltRems s).find? (fun rem => wordBoundAfter rem)

/-- Matcher for the comma-separated name pattern
`[A-Z][A-Za-z'`.\-]+,\s*[A-Z][A-Za-z'`.\-]+` (case-sensitive, no
boundaries), as counted by `looks_like_player_blob`. -/
def commaNameM (_prev : Option Char) (s : List Char) : Option (List Char) :=
  match s with
  | [] => none
  | c0 :: r0 =>
    if !isUpperAZ c0 then none
    else
      let run1 := r0.takeWhile (fun c => isNameClassChar c)
      if run1.length < 1 then none
      else
        match r0.drop run1.length with
        | ',' :: r2 =>
          match r2.dropWhile (fun c => isPySpace c) with
          | [] => none
          | c1 :: r4 =>
            if !isUpperAZ c1 then none
            else
              let run2 := r4.takeWhile (fun c => isNameClassChar c)
              if run2.length < 1 then none else some (r4.drop run2.length)
        | _ => none

/-- Generic `re.search`: position of the leftmost match. -/
def reSearchAux (m : Option Char → List Char → Option (List Char)) :
    Option Char → Nat → List Char → Option Nat
  | _, _, [] => none
  | prev, pos, c :: rest =>
    if (m prev (c :: rest)).isSome then some pos
    else reSearchAux m (some c) (pos + 1) rest

/-- Position of the leftmost match of a matcher in a string. -/
def reSearch (m : Option Char → List Char → Option (List Char))
    (s : List Char) : Option Nat :=
  reSearchAux m none 0 s

/-- Generic `re.sub(pattern, "", ...)`: drop every non-overlapping match,
scanning left to right (new matches created by a removal are not seen, as
in Python, which scans the input string).  Fuel bounds the step count. -/
def reSubAux (m : Option Char → List Char → Option (List Char)) :
    Nat → Option Char → List Char → List Char
  | 0, _, s => s
  | _ + 1, _, [] => []
  | fuel + 1, prev, c :: rest =>
    match m prev (c :: rest) with
    | some rem =>
      reSubAux m fuel (((c :: rest).take ((c :: rest).length - rem.length)).getLast?) rem
    | none => c :: reSubAux m fuel (some c) rest

/-- Remove every match of a matcher from a string. -/
def reSubRemove (m : Option Char → List Char → Option (List Char))
    (s : List Char) : List Char :=
  reSubAux m (s.length + 1) none s

/-- Generic `len(re.findall(...))`: number of non-overlapping matches. -/
def reCountAux (m : Option Char → List Char → Option (List Char)) :
    Nat → Option Char → List Char → Nat
  | 0, _, _ => 0
  | _ + 1, _, [] => 0
  | fuel + 1, prev, c :: rest =>
    match m prev (c :: rest) with
    | some rem =>
      1 + reCountAux m fuel (((c :: rest).take ((c :: rest).length - rem.length)).getLast?) rem
    | none => reCountAux m fuel (some c) rest

/-- Number of non-overlapping matches of a matcher in a string. -/
def reCount (m : Option Char → List Char → Option (List Char))
    (s : List Char) : Nat :=
  reCountAux m (s.length + 1) none s

/-- The deduplicator noise pattern `noisy_reason_regex` (blob without
boundaries, page marker, date, matchup — all under `re.I`): leftmost-match
existence. -/
def noisyReasonSearch (s : List Char) : Bool :=
  (reSearch (fun prev t =>
    match psBlobM false false prev t with
    | some r => some r
    | none =>
      match pageMarkerM prev t with
      | some r => some r
      | none =>
        match dateBlobM prev t with
        | some r => some r
        | none => matchupBlobM true prev t) s).isSome

/-!
## Reconciler helper predicates (`normalize_rows` inner functions) and the
CSV-validator contamination predicate
-/

/-- Combined matcher for `\b\d{2}/\d{2}/\d{4}\b|\b\d{1,2}:\d{2}\s*\(ET\)\b`. -/
def dateOrTimeBlobM (prev : Option Char) (s : List Char) : Option (List Char) :=
  (dateBlobM prev s).orElse (fun _ => timeEtBlobM prev s)

/-- Model of the shared `normalize_spaces`: NBSP to space, collapse
whitespace runs, strip. -/
def normSpaces (text : List Char) : List Char :=
  pyStrip (collapseWs (pyReplace text [Char.ofNat 160] [' ']))

/-- Model of `looks_like_player_blob`: any of the four noise patterns, or at
least two status tokens together with a comma-separated name. -/
def looksLikePlayerBlob (text : List Char) : Bool :=
  let compact := normSpaces text
  if compact = [] then false
  else if (reSearch (psBlobM true true) compact).isSome then true
  else if (reSearch pageMarkerM compact).isSome then true
  else if (reSearch (matchupBlobM false) compact).isSome then true
  else if (reSearch dateOrTimeBlobM compact).isSome then true
  else decide (2 ≤ reCount statusBlobTokenM compact ∧ 1 ≤ reCount commaNameM compact)

/-- Minimum of a nonempty position list (`min(cut_positions)`). -/
def minPositions (p : Nat) (rest : List Nat) : Nat := rest.foldl min p

/-- Model of `trim_reason_noise`: empty the text when it starts with a
player/status blob, cut at the first noise match after position zero,
remove page markers, strip separators, and normalize the sentinel. -/
def trimReasonNoise (text : List Char) : List Char :=
  let compact := normSpaces text
  if compact = [] then []
  else if (psBlobM true true none compact).isSome then []
  else
    let cuts := ([reSearch pageMarkerM compact, reSearch dateOrTimeBlobM compact,
      reSearch (matchupBlobM false) compact,
      reSearch (psBlobM true true) compact].filterMap id).filter (fun n => 0 < n)
    let compact2 :=
      match cuts with
      | [] => compact
      | p :: rest => pyStrip (compact.take (minPositions p rest))
    let compact3 := pyStripChars (sl " ;,-") (reSubRemove pageMarkerM compact2)
    if pyReplace (pyUpper compact3) [' '] [] = sl "NOTYETSUBMITTED" then sl "NOT YET SUBMITTED"
    else compact3

/-- The six status tokens of `STATUS_TOKENS`, in the alternation order of
`status_pattern` (escaped literals, spaces matched literally). -/
def statusTokensList : List (List Char) :=
  [sl "Not With Team", sl "Questionable", sl "Doubtful", sl "Probable", sl "Available", sl "Out"]

/-- First token of a list that matches case-insensitively at the head of
`s` with a trailing word boundary; returns the matched original text.  A
failed trailing boundary falls through to the next alternative. -/
def firstTokenMatch : List (List Char) → List Char → Option (List Char)
  | [], _ => none
  | t :: ts, s =>
    match ciMatchLit t s with
    | some rem => if wordBoundAfter rem then some (s.take t.length) else firstTokenMatch ts s
    | none => firstTokenMatch ts s

/-- Matcher of `status_pattern` (`\b(token)\b`, `re.I`), returning the
matched text (which is both group 0 and group 1). -/
def statusPatternAt (prev : Option Char) (s : List Char) : Option (List Char) :=
  if !wordBoundBefore prev then none
  else firstTokenMatch statusTokensList s

/-- Scanner returning the matched text of the leftmost match. -/
def reSearchTxtAux (m : Option Char → List Char → Option (List Char)) :
    Option Char → List Char → Option (List Char)
  | _, [] => none
  | prev, c :: rest =>
    match m prev (c :: rest) with
    | some txt => some txt
    | none => reSearchTxtAux m (some c) rest

/-- Matched text of the leftmost `status_pattern` match. -/
def statusPatternSearch (s : List Char) : Option (List Char) :=
  reSearchTxtAux statusPatternAt none s

/-- The alternatives of `reason_pattern`, in order. -/
def reasonTokensList : List (List Char) :=
  [sl "Injury/Illness", sl "Injury", sl "Illness", sl "G League", sl "GLeague",
    sl "Personal", sl "Rest", sl "Suspension", sl "Not With Team", sl "Injury Recovery"]

/-- First case-insensitive literal of a list matching at the head of `s`. -/
def firstCiLit : List (List Char) → List Char → Option (List Char)
  | [], _ => none
  | t :: ts, s =>
    match ciMatchLit t s with
    | some rem => some rem
    | none => firstCiLit ts s

/-- Matcher of `reason_pattern` (alternation of literals, no boundaries). -/
def reasonPatternM (_prev : Option Char) (s : List Char) : Option (List Char) :=
  firstCiLit reasonTokensList s

/-- Position of the leftmost `reason_pattern` match. -/
def reasonPatternSearch (s : List Char) : Option Nat :=
  reSearch reasonPatternM s

/-- The keywords of `reason_keyword_regex`. -/
def reasonKeywordsList : List (List Char) :=
  [sl "management", sl "contusion", sl "sprain", sl "strain", sl "soreness",
    sl "surgery", sl "tear", sl "recovery", sl "reconditioning", sl "tendinitis",
    sl "fracture", sl "tendinopathy", sl "illness", sl "injury", sl "irritation",
    sl "tightness", sl "bruise", sl "spasms", sl "stress", sl "thrombosis",
    sl "mcl", sl "acl", sl "pcl", sl "lcl", sl "ankle", sl "knee", sl "foot",
    sl "back", sl "shoulder", sl "hamstring", sl "groin", sl "achilles", sl "toe",
    sl "hand", sl "wrist", sl "finger", sl "elbow", sl "quad", sl "calf",
    sl "rib", sl "hip"]

/-- Existence of a `reason_keyword_regex` match (case-insensitive substring). -/
def reasonKeywordSearch (s : List Char) : Bool :=
  reasonKeywordsList.any (fun k => ciContains s k)

/-- The reason prefixes of `reason_prefixes`, in list order. -/
def reasonPfxList : List (List Char) :=
  [sl "G League", sl "Injury/Illness", sl "NOT YET SUBMITTED", sl "Not With Team",
    sl "Return to Competition Reconditioning"]

/-- Model of `starts_with_reason_prefix` (case-sensitive `startswith`). -/
def startsWithReasonPfx (text : List Char) : Bool :=
  if text = [] then false else reasonPfxList.any (fun p => p.isPrefixOf text)

/-- Model of `looks_like_reason_continuation`. -/
def looksLikeReasonContinuation (text : List Char) : Bool :=
  if text = [] then false
  else if startsWithReasonPfx text then true
  else reasonKeywordSearch text

/-- All case-insensitive occurrence positions of a literal (none of the
reason prefixes has a non-trivial border, so non-overlapping `finditer`
enumeration coincides with all occurrences). -/
def literalPosAux (lit : List Char) : Nat → List Char → List Nat
  | _, [] => []
  | pos, c :: rest =>
    (if (ciMatchLit lit (c :: rest)).isSome then [pos] else []) ++
      literalPosAux lit (pos + 1) rest

/-- Insert into a sorted duplicate-free list of naturals. -/
def insertNatSorted (n : Nat) : List Nat → List Nat
  | [] => [n]
  | m :: rest =>
    if n < m then n :: m :: rest
    else if n = m then m :: rest
    else m :: insertNatSorted n rest

/-- Sorted duplicate-free version of a list (`sorted(set(...))`). -/
def sortedDedup (l : List Nat) : List Nat := l.foldr insertNatSorted []

/-- Model of `split_reason_on_prefixes`. -/
def splitReasonOnPfx (text : List Char) : List Char × List Char :=
  if text = [] then (text, [])
  else
    let text2 := pyStrip (pyReplace text [Char.ofNat 160] [' '])
    let positions := sortedDedup ((reasonPfxList.map (fun p => literalPosAux p 0 text2)).flatten)
    match positions with
    | [] => (text2, [])
    | p0 :: ptl =>
      let p0' := if pyStrip (text2.take p0) = [] then 0 else p0
      if p0' > 0 then (pyStrip (text2.take p0'), pyStrip (text2.drop p0'))
      else
        match ptl with
        | [] => (text2, [])
        | p1 :: _ => (pyStrip (text2.take p1), pyStrip (text2.drop p1))

/-- The suffix tokens of the `should_append_reason` end-anchored pattern. -/
def suffixTokensList : List (List Char) :=
  [sl "Injury", sl "Illness", sl "Recovery", sl "Reconditioning", sl "Management",
    sl "Surgery", sl "Sprain", sl "Strain", sl "Tear", sl "Contusion",
    sl "Fracture", sl "Tendinopathy", sl "Bruise", sl "Soreness", sl "Tightness"]

/-- Case-insensitive suffix test. -/
def ciEndsWith (s tok : List Char) : Bool :=
  (pyLower tok).isSuffixOf (pyLower s)

/-- End-anchored search `re.search(r"(tok)$", s, re.I)`: the `$` also
matches just before a final newline. -/
def dollarEndsWith (s tok : List Char) : Bool :=
  ciEndsWith s tok ||
    (match s.getLast? with
     | some c => c = Char.ofNat 10 && ciEndsWith s.dropLast tok
     | none => false)

/-- Model of `should_append_reason`. -/
def shouldAppendReason (prevReason continuation : List Char) : Bool :=
  if prevReason = [] || continuation = [] then false
  else if (match continuation.head? with | some c => isLowerAZ c | none => false) then true
  else if prevReason.getLast? = some ';' || prevReason.getLast? = some '-' then true
  else suffixTokensList.any (fun t => dollarEndsWith prevReason t)

/-- Exact (case-sensitive) literal match at the head of a string. -/
def litMatch (lit s : List Char) : Option (List Char) :=
  if lit.isPrefixOf s then some (s.drop lit.length) else none

/-- Matcher of the `is_header_row` player pattern, which (because the source
uses doubled backslashes inside a raw string) matches literal backslashes
and letters: `\dd/\dd/\dd` + backslash + `s`-run + `\dd:\dd` + backslash +
`s`-run + `A` or `P` + `M`, anchored at the start. -/
def headerTimeM (s : List Char) : Bool :=
  let bs := Char.ofNat 92
  match litMatch [bs, 'd', 'd', '/', bs, 'd', 'd', '/', bs, 'd', 'd', bs] s with
  | none => false
  | some r1 =>
    let run1 := r1.takeWhile (fun c => c = 's')
    if run1.length < 1 then false
    else
      match litMatch [bs, 'd', 'd', ':', bs, 'd', 'd', bs] (r1.drop run1.length) with
      | none => false
      | some r2 =>
        match r2.dropWhile (fun c => c = 's') with
        | 'A' :: 'M' :: _ => true
        | 'P' :: 'M' :: _ => true
        | _ => false

/-- Model of `is_header_row`. -/
def isHeaderRow (teamValue playerValue : List Char) : Bool :=
  (sl "injury report").isPrefixOf (pyLower (pyStrip teamValue)) ||
    headerTimeM (pyStrip playerValue)

/-- Model of the CSV validator predicate `_is_contaminated_reason`: the four
noise patterns of §4.6, applied to the whitespace-normalized reason. -/
def isContaminatedReason (reason : List Char) : Bool :=
  let text := normSpaces reason
  if text = [] then false
  else
    (reSearch (psBlobM true true) text).isSome ||
      (reSearch pageMarkerM text).isSome ||
      (reSearch (matchupBlobM false) text).isSome ||
      (reSearch dateOrTimeBlobM text).isSome

/-!
## Deduplicator (`deduplicate_rows`, claims C4 and C5)

The Python dictionary is modelled by an insertion-ordered association list;
`id(row)` keys for rows that bypass keyed grouping are modelled by the
position of the row in the input.  The final ordering is the stable sort by
`(page, rowIndex)`.
-/

/-- Grouping key `(team.strip().upper(), player.strip().upper(),
gameTime.strip())`. -/
structure DedupKey where
  team : List Char
  player : List Char
  time : List Char
deriving Repr, DecidableEq

/-- Key of a row. -/
def dedupKey (row : Row) : DedupKey :=
  ⟨pyUpper (pyStrip row.team), pyUpper (pyStrip row.player), pyStrip row.gameTime⟩

/-- Dictionary keys: the grouping tuple, or the object identity of an
unkeyed row (modelled by its input position). -/
inductive UKey where
  | real : DedupKey → UKey
  | anon : Nat → UKey
deriving Repr, DecidableEq

/-- Lookup in the insertion-ordered association list. -/
def assocFind (k : UKey) : List (UKey × Row) → Option Row
  | [] => none
  | (k2, v) :: rest => if k2 = k then some v else assocFind k rest

/-- In-place value update, keeping insertion order. -/
def assocUpdate (k : UKey) (f : Row → Row) : List (UKey × Row) → List (UKey × Row)
  | [] => []
  | (k2, v) :: rest => if k2 = k then (k2, f v) :: rest else (k2, v) :: assocUpdate k f rest

/-- Merge of an incoming row into the kept row with the same key: reason
concatenation unless already a substring, then back-fill of empty fields. -/
def dedupMerge (existing row : Row) : Row :=
  let er := pyStrip existing.reason
  let nr := pyStrip row.reason
  let e1 := if nr ≠ [] ∧ containsSub er nr = false then
      { existing with reason := pyStrip (er ++ [' '] ++ nr) } else existing
  let e2 := if e1.status = [] ∧ row.status ≠ [] then { e1 with status := row.status } else e1
  let e3 := if e2.matchup = [] ∧ row.matchup ≠ [] then { e2 with matchup := row.matchup } else e2
  let e4 := if e3.gameTime = [] ∧ row.gameTime ≠ [] then { e3 with gameTime := row.gameTime } else e3
  if e4.team = [] ∧ row.team ≠ [] then { e4 with team := row.team } else e4

/-- One iteration of the deduplication loop over `(position, row)`. -/
def dedupStep (st : List (UKey × Row)) (idxRow : Nat × Row) : List (UKey × Row) :=
  let key := dedupKey idxRow.2
  if key.player = [] ∨ key.player = sl "NOT YET SUBMITTED" then
    st ++ [(UKey.anon idxRow.1, idxRow.2)]
  else
    match assocFind (UKey.real key) st with
    | some _ =>
      let nr := pyStrip idxRow.2.reason
      if nr ≠ [] ∧ noisyReasonSearch nr then st
      else assocUpdate (UKey.real key) (fun e => dedupMerge e idxRow.2) st
    | none => st ++ [(UKey.real key, idxRow.2)]

/-- Strict lexicographic order on `(page, rowIndex)`. -/
def rowKeyLt (a b : Row) : Bool :=
  a.page < b.page || (a.page = b.page && a.rowIndex < b.rowIndex)

/-- Stable insertion for the `(page, rowIndex)` sort: an element is placed
before the first kept element that is strictly greater. -/
def insRow (x : Row) : List Row → List Row
  | [] => [x]
  | y :: rest => if rowKeyLt y x then y :: insRow x rest else x :: y :: rest

/-- Stable sort by `(page, rowIndex)` (Python `list.sort` is stable). -/
def stableSortRows : List Row → List Row
  | [] => []
  | x :: rest => insRow x (stableSortRows rest)

/-- Model of `deduplicate_rows`. -/
def deduplicateRows (rows : List Row) : List Row :=
  if rows = [] then []
  else
    let st := rows.enum.foldl dedupStep []
    stableSortRows (st.map (fun p => p.2))

/-- Claim C4 (counterexample): when the incoming duplicate has a noisy
reason (here a page marker), the deduplicator skips the row entirely, so the
kept row's empty `status` and `matchup` are NOT back-filled from the
incoming `"Out"` and `"MIA@WAS"`, contradicting the claim's
"in either case every empty field ... is back-filled". -/
theorem c4_counterexample :
    deduplicateRows
        [⟨sl "02:00 PM", [], sl "Miami Heat", sl "Doe, John", [], sl "knee", 1, 0, []⟩,
          ⟨sl "02:00 PM", sl "MIA@WAS", sl "Miami Heat", sl "Doe, John", sl "Out",
            sl "Page 1 of 2", 1, 1, []⟩] =
      [⟨sl "02:00 PM", [], sl "Miami Heat", sl "Doe, John", [], sl "knee", 1, 0, []⟩] ∧
    dedupKey ⟨sl "02:00 PM", [], sl "Miami Heat", sl "Doe, John", [], sl "knee", 1, 0, []⟩ =
      dedupKey ⟨sl "02:00 PM", sl "MIA@WAS", sl "Miami Heat", sl "Doe, John", sl "Out",
        sl "Page 1 of 2", 1, 1, []⟩ ∧
    noisyReasonSearch (pyStrip (sl "Page 1 of 2")) = true := by
  decide

/-- Claim C4 (amended): when an incoming row shares the grouping key with a
kept row, a noisy incoming reason causes the row to be skipped entirely (no
merge and no back-fill); otherwise the rows merge: a non-substring reason is
concatenated and every empty field among status, matchup, gameTime and team
is back-filled from the incoming row. -/
theorem c4_amended (r1 r2 : Row) (hkey : dedupKey r1 = dedupKey r2)
    (hne : (dedupKey r2).player ≠ [])
    (hnys : (dedupKey r2).player ≠ sl "NOT YET SUBMITTED") :
    (pyStrip r2.reason ≠ [] → noisyReasonSearch (pyStrip r2.reason) = true →
      deduplicateRows [r1, r2] = [r1]) ∧
    (pyStrip r2.reason = [] ∨ noisyReasonSearch (pyStrip r2.reason) = false →
      deduplicateRows [r1, r2] = [dedupMerge r1 r2]) ∧
    (dedupMerge r1 r2).reason =
      (if pyStrip r2.reason ≠ [] ∧ containsSub (pyStrip r1.reason) (pyStrip r2.reason) = false
        then pyStrip (pyStrip r1.reason ++ ' ' :: pyStrip r2.reason) else r1.reason) ∧
    (dedupMerge r1 r2).status =
      (if r1.status = [] ∧ r2.status ≠ [] then r2.status else r1.status) ∧
    (dedupMerge r1 r2).matchup =
      (if r1.matchup = [] ∧ r2.matchup ≠ [] then r2.matchup else r1.matchup) ∧
    (dedupMerge r1 r2).gameTime =
      (if r1.gameTime = [] ∧ r2.gameTime ≠ [] then r2.gameTime else r1.gameTime) ∧
    (dedupMerge r1 r2).team =
      (if r1.team = [] ∧ r2.team ≠ [] then r2.team else r1.team) := by
  have hne1 : (dedupKey r1).player ≠ [] := by rw [hkey]; exact hne
  have hnys1 : (dedupKey r1).player ≠ sl "NOT YET SUBMITTED" := by rw [hkey]; exact hnys
  have hcommon : ∀ tail : List (UKey × Row),
      List.foldl dedupStep [] (List.enum [r1, r2]) =
        dedupStep [(UKey.real (dedupKey r1), r1)] (1, r2) := by
    intro _
    show dedupStep (dedupStep [] (0, r1)) (1, r2) = _
    congr 1
    unfold dedupStep
    rw [if_neg (by push_neg; exact ⟨hne1, hnys1⟩)]
    rfl
  have hfind : assocFind (UKey.real (dedupKey r2)) [(UKey.real (dedupKey r1), r1)] = some r1 := by
    simp [assocFind, hkey]
  refine ⟨?_, ?_, ?_, ?_, ?_, ?_, ?_⟩
  · intro hnr hnoisy
    unfold deduplicateRows
    rw [if_neg (by simp)]
    rw [hcommon []]
    unfold dedupStep
    rw [if_neg (by push_neg; exact ⟨hne, hnys⟩)]
    simp only [hfind]
    rw [if_pos ⟨hnr, hnoisy⟩]
    simp [stableSortRows, insRow]
  · intro hclean
    unfold deduplicateRows
    rw [if_neg (by simp)]
    rw [hcommon []]
    unfold dedupStep
    rw [if_neg (by push_neg; exact ⟨hne, hnys⟩)]
    simp only [hfind]
    rw [if_neg (by
      rcases hclean with h | h
      · simp [h]
      · simp [h])]
    have hupd : assocUpdate (UKey.real (dedupKey r2)) (fun e => dedupMerge e r2)
        [(UKey.real (dedupKey r1), r1)] = [(UKey.real (dedupKey r1), dedupMerge r1 r2)] := by
      simp [assocUpdate, hkey]
    rw [hupd]
    simp [stableSortRows, insRow]
  all_goals
    unfold dedupMerge
    simp only [apply_ite (fun r : Row => r.reason), apply_ite (fun r : Row => r.status),
      apply_ite (fun r : Row => r.matchup), apply_ite (fun r : Row => r.gameTime),
      apply_ite (fun r : Row => r.team), ite_self, List.append_assoc, List.singleton_append]

/-- Witness for `c4_amended`: a noisy duplicate is skipped without
back-fill, and a clean duplicate is merged. -/
theorem c4_amended_witness :
    deduplicateRows
        [⟨sl "02:00 PM", [], sl "Miami Heat", sl "Doe, John", [], sl "knee", 1, 0, []⟩,
          ⟨sl "02:00 PM", sl "MIA@WAS", sl "Miami Heat", sl "Doe, John", sl "Out",
            sl "Page 1 of 2", 1, 1, []⟩] =
      [⟨sl "02:00 PM", [], sl "Miami Heat", sl "Doe, John", [], sl "knee", 1, 0, []⟩] :=
  (c4_amended _ _ (by decide) (by decide) (by decide)).1 (by decide) (by decide)

/-!
## Idempotence of the deduplicator (claim C5)
-/

/-- Non-strict companion of `rowKeyLt`: `a` may keep its place before `b`. -/
def rowKeyLe (a b : Row) : Prop := rowKeyLt b a = false

/-- The strict order and its complement exchange under swapping. -/
theorem rowKeyLtAsymm {a b : Row} (h : rowKeyLt a b = true) : rowKeyLt b a = false := by
  cases hb : rowKeyLt b a with
  | false => rfl
  | true =>
    exfalso
    simp only [rowKeyLt, Bool.or_eq_true, Bool.and_eq_true, decide_eq_true_eq] at h hb
    omega

/-- Head of an insertion: either the inserted element or the old head. -/
theorem insRowHead (x : Row) (l : List Row) :
    (insRow x l).head? = some x ∨ (insRow x l).head? = l.head? := by
  cases l with
  | nil => left; rfl
  | cons y rest =>
    by_cases h : rowKeyLt y x
    · right; simp [insRow, h]
    · left; simp [insRow, h]

/-- Insertion preserves adjacent sortedness. -/
theorem insRowChain (x : Row) :
    ∀ (l : List Row), List.Chain' rowKeyLe l → List.Chain' rowKeyLe (insRow x l) := by
  intro l
  induction l with
  | nil => intro _; simp [insRow]
  | cons y rest ih =>
    intro hch
    rw [List.chain'_cons'] at hch
    obtain ⟨hhd, htl⟩ := hch
    by_cases h : rowKeyLt y x = true
    · rw [show insRow x (y :: rest) = y :: insRow x rest from by
        simp [insRow, h]]
      rw [List.chain'_cons']
      refine ⟨?_, ih htl⟩
      intro z hz
      rcases insRowHead x rest with hh | hh
      · rw [hh] at hz
        have hzx : x = z := by simpa using hz
        rw [← hzx]
        exact rowKeyLtAsymm h
      · rw [hh] at hz
        exact hhd z hz
    · rw [show insRow x (y :: rest) = x :: y :: rest from by
        simp [insRow, h]]
      rw [List.chain'_cons']
      refine ⟨?_, ?_⟩
      · intro z hz
        have hzy : y = z := by simpa using hz
        rw [← hzy]
        simpa [rowKeyLe] using h
      · rw [List.chain'_cons']
        exact ⟨hhd, htl⟩

/-- The stable sort output is adjacently sorted. -/
theorem sortChain : ∀ (l : List Row), List.Chain' rowKeyLe (stableSortRows l) := by
  intro l
  induction l with
  | nil => simp [stableSortRows]
  | cons x rest ih => exact insRowChain x _ ih

/-- Inserting into a list is a permutation of consing. -/
theorem insRowPerm (x : Row) : ∀ (l : List Row), (insRow x l).Perm (x :: l) := by
  intro l
  induction l with
  | nil => simp [insRow]
  | cons y rest ih =>
    by_cases h : rowKeyLt y x = true
    · rw [show insRow x (y :: rest) = y :: insRow x rest from by
        simp [insRow, h]]
      exact List.Perm.trans (List.Perm.cons y ih) (List.Perm.swap x y rest)
    · rw [show insRow x (y :: rest) = x :: y :: rest from by
        simp [insRow, h]]

/-- The stable sort permutes its input. -/
theorem sortPerm : ∀ (l : List Row), (stableSortRows l).Perm l := by
  intro l
  induction l with
  | nil => simp [stableSortRows]
  | cons x rest ih =>
    exact List.Perm.trans (insRowPerm x (stableSortRows rest)) (List.Perm.cons x ih)

/-- Sorting an adjacently sorted list is the identity. -/
theorem sortedChainId : ∀ (l : List Row), List.Chain' rowKeyLe l → stableSortRows l = l := by
  intro l
  induction l with
  | nil => intro _; rfl
  | cons x rest ih =>
    intro hch
    rw [List.chain'_cons'] at hch
    obtain ⟨hhd, htl⟩ := hch
    show insRow x (stableSortRows rest) = x :: rest
    rw [ih htl]
    cases rest with
    | nil => rfl
    | cons y rest2 =>
      have hxy : rowKeyLe x y := hhd y rfl
      simp only [rowKeyLe] at hxy
      simp [insRow, hxy]

/-- Eligibility for keyed grouping (the negation of the unkeyed-row guard). -/
def eligible (r : Row) : Prop :=
  ¬((dedupKey r).player = [] ∨ (dedupKey r).player = sl "NOT YET SUBMITTED")

instance (r : Row) : Decidable (eligible r) := by
  unfold eligible
  infer_instance

/-- Lookup distributes over append. -/
theorem assocFindAppend (k : UKey) : ∀ (a b : List (UKey × Row)),
    assocFind k (a ++ b) =
      match assocFind k a with
      | some v => some v
      | none => assocFind k b := by
  intro a b
  induction a with
  | nil => simp [assocFind]
  | cons p rest ih =>
    by_cases h : p.1 = k
    · simp [assocFind, h]
    · obtain ⟨k2, v⟩ := p
      simp only at h
      simp [assocFind, h, ih]

/-- A failed lookup means the key is absent. -/
theorem assocFindNoneNotMem {k : UKey} : ∀ {st : List (UKey × Row)},
    assocFind k st = none → k ∉ st.map Prod.fst := by
  intro st
  induction st with
  | nil => intro _; simp
  | cons p rest ih =>
    intro h
    obtain ⟨k2, v⟩ := p
    by_cases hk : k2 = k
    · simp [assocFind, hk] at h
    · simp only [assocFind, hk, if_false] at h
      simp only [List.map_cons, List.mem_cons]
      rintro (h1 | h1)
      · exact hk h1.symm
      · exact ih h h1

/-- A successful lookup returns a stored entry. -/
theorem assocFindSomeMem {k : UKey} {v : Row} : ∀ {st : List (UKey × Row)},
    assocFind k st = some v → (k, v) ∈ st := by
  intro st
  induction st with
  | nil => intro h; simp [assocFind] at h
  | cons p rest ih =>
    intro h
    obtain ⟨k2, w⟩ := p
    by_cases hk : k2 = k
    · simp only [assocFind, hk, if_pos] at h
      subst hk
      simp only [Option.some.injEq] at h
      simp [h]
    · simp only [assocFind, hk, if_false] at h
      exact List.mem_cons_of_mem _ (ih h)

/-- Updating keeps the key sequence. -/
theorem assocUpdateFst (k : UKey) (f : Row → Row) : ∀ (st : List (UKey × Row)),
    (assocUpdate k f st).map Prod.fst = st.map Prod.fst := by
  intro st
  induction st with
  | nil => rfl
  | cons p rest ih =>
    obtain ⟨k2, v⟩ := p
    by_cases hk : k2 = k
    · simp [assocUpdate, hk]
    · simp [assocUpdate, hk, ih]

/-- Entries after an update are old entries or the rewritten stored entry. -/
theorem assocUpdateMem {k : UKey} {f : Row → Row} :
    ∀ {st : List (UKey × Row)} {p : UKey × Row}, p ∈ assocUpdate k f st →
      p ∈ st ∨ ∃ v, (k, v) ∈ st ∧ p = (k, f v) := by
  intro st
  induction st with
  | nil => intro p h; simp [assocUpdate] at h
  | cons q rest ih =>
    intro p h
    obtain ⟨k2, v⟩ := q
    by_cases hk : k2 = k
    · subst hk
      simp only [assocUpdate, ite_true] at h
      rcases List.mem_cons.mp h with h1 | h1
      · exact Or.inr ⟨v, List.mem_cons_self _ _, h1⟩
      · exact Or.inl (List.mem_cons_of_mem _ h1)
    · simp only [assocUpdate] at h
      rw [if_neg hk] at h
      rcases List.mem_cons.mp h with h1 | h1
      · exact Or.inl (h1 ▸ List.mem_cons_self _ _)
      · rcases ih h1 with h2 | ⟨w, hw, hp⟩
        · exact Or.inl (List.mem_cons_of_mem _ h2)
        · exact Or.inr ⟨w, List.mem_cons_of_mem _ hw, hp⟩

/-- Merging never changes the player field. -/
theorem dedupMergePlayer (e r : Row) : (dedupMerge e r).player = e.player := by
  unfold dedupMerge
  simp only [apply_ite (fun x : Row => x.player), ite_self]

/-- Merging back-fills the team field only when it is empty. -/
theorem dedupMergeTeam (e r : Row) :
    (dedupMerge e r).team = if e.team = [] ∧ r.team ≠ [] then r.team else e.team := by
  unfold dedupMerge
  simp only [apply_ite (fun x : Row => x.team), ite_self]

/-- Merging back-fills the game time only when it is empty. -/
theorem dedupMergeTime (e r : Row) :
    (dedupMerge e r).gameTime =
      if e.gameTime = [] ∧ r.gameTime ≠ [] then r.gameTime else e.gameTime := by
  unfold dedupMerge
  simp only [apply_ite (fun x : Row => x.gameTime), ite_self]

/-- Merging preserves the grouping key. -/
theorem dedupMergeKey (e row : Row) (h : dedupKey row = dedupKey e) :
    dedupKey (dedupMerge e row) = dedupKey e := by
  have hteam : pyUpper (pyStrip row.team) = pyUpper (pyStrip e.team) := congrArg DedupKey.team h
  have htime : pyStrip row.gameTime = pyStrip e.gameTime := congrArg DedupKey.time h
  unfold dedupKey
  rw [dedupMergePlayer, dedupMergeTeam, dedupMergeTime]
  simp only [DedupKey.mk.injEq]
  refine ⟨?_, True.intro, ?_⟩
  · split_ifs with h1
    · rw [h1.1] at hteam
      rw [hteam, h1.1]
    · rfl
  · split_ifs with h1
    · rw [h1.1] at htime
      rw [htime, h1.1]
    · rfl

/-- Rows with the same key agree on eligibility. -/
theorem eligibleCongr {a b : Row} (h : dedupKey a = dedupKey b) : eligible a ↔ eligible b := by
  unfold eligible
  rw [h]

/-- Entries are stored under the key computed from their row. -/
def wellKeyed (st : List (UKey × Row)) : Prop :=
  ∀ p ∈ st, (∀ d, p.1 = UKey.real d → d = dedupKey p.2 ∧ eligible p.2) ∧
    (∀ n, p.1 = UKey.anon n → ¬ eligible p.2)

/-- Stored keys are pairwise distinct. -/
def distinctKeys (st : List (UKey × Row)) : Prop :=
  (st.map Prod.fst).Pairwise (fun a b => a ≠ b)

/-- Every identity key in the state is below the bound. -/
def anonBound (b : Nat) (st : List (UKey × Row)) : Prop :=
  ∀ k ∈ st.map Prod.fst, ∀ n, k = UKey.anon n → n < b

/-- The positions of a position/row list are increasing from a bound. -/
def incrFrom : Nat → List (Nat × Row) → Prop
  | _, [] => True
  | b, q :: rest => b ≤ q.1 ∧ incrFrom (q.1 + 1) rest

/-- The positions of `enumFrom` are increasing. -/
theorem incrFromEnumFrom : ∀ (l : List Row) (n : Nat), incrFrom n (List.enumFrom n l) := by
  intro l
  induction l with
  | nil => intro n; simp [List.enumFrom, incrFrom]
  | cons x rest ih =>
    intro n
    exact ⟨Nat.le_refl n, ih (n + 1)⟩

/-- Invariant of the deduplication fold: the state stays well-keyed with
pairwise distinct keys. -/
theorem dedupFoldInv : ∀ (pl : List (Nat × Row)) (st : List (UKey × Row)) (b : Nat),
    wellKeyed st → distinctKeys st → anonBound b st → incrFrom b pl →
    wellKeyed (pl.foldl dedupStep st) ∧ distinctKeys (pl.foldl dedupStep st) := by
  intro pl
  induction pl with
  | nil => intro st b hWK hD _ _; exact ⟨hWK, hD⟩
  | cons q tail ih =>
    intro st b hWK hD hA hI
    obtain ⟨i, r⟩ := q
    obtain ⟨hbi, hItail⟩ := hI
    simp only [List.foldl_cons]
    by_cases hel : eligible r
    · have hguard : ¬((dedupKey r).player = [] ∨ (dedupKey r).player = sl "NOT YET SUBMITTED") :=
        hel
      cases hfind : assocFind (UKey.real (dedupKey r)) st with
      | some v =>
        by_cases hnoisy : pyStrip r.reason ≠ [] ∧ noisyReasonSearch (pyStrip r.reason) = true
        · have hstep : dedupStep st (i, r) = st := by
            unfold dedupStep
            rw [if_neg hguard]
            simp only [hfind]
            rw [if_pos hnoisy]
          rw [hstep]
          exact ih st (i + 1) hWK hD
            (fun k hk n hn => Nat.lt_of_lt_of_le (hA k hk n hn) (by omega)) hItail
        · have hstep : dedupStep st (i, r) =
              assocUpdate (UKey.real (dedupKey r)) (fun e => dedupMerge e r) st := by
            unfold dedupStep
            rw [if_neg hguard]
            simp only [hfind]
            rw [if_neg hnoisy]
          rw [hstep]
          apply ih _ (i + 1)
          · intro p hp
            rcases assocUpdateMem hp with hold | ⟨w, hw, hpw⟩
            · exact hWK p hold
            · have hkw := (hWK _ hw).1 (dedupKey r) rfl
              have hkey : dedupKey r = dedupKey w := hkw.1
              have helw : eligible w := hkw.2
              have hmk : dedupKey (dedupMerge w r) = dedupKey w := dedupMergeKey w r hkey
              constructor
              · intro d hd
                rw [hpw] at hd ⊢
                simp only [UKey.real.injEq] at hd
                show d = dedupKey (dedupMerge w r) ∧ eligible (dedupMerge w r)
                refine ⟨?_, ?_⟩
                · rw [hmk, ← hkey, hd]
                · exact (eligibleCongr hmk).mpr helw
              · intro n hn
                rw [hpw] at hn
                simp at hn
          · unfold distinctKeys
            rw [assocUpdateFst]
            exact hD
          · unfold anonBound
            rw [assocUpdateFst]
            exact fun k hk n hn => Nat.lt_of_lt_of_le (hA k hk n hn) (by omega)
          · exact hItail
      | none =>
        have hstep : dedupStep st (i, r) = st ++ [(UKey.real (dedupKey r), r)] := by
          unfold dedupStep
          rw [if_neg hguard]
          simp only [hfind]
        rw [hstep]
        apply ih _ (i + 1)
        · intro p hp
          rcases List.mem_append.mp hp with hold | hnew
          · exact hWK p hold
          · have hpv : p = (UKey.real (dedupKey r), r) := by simpa using hnew
            rw [hpv]
            constructor
            · intro d hd
              simp only [UKey.real.injEq] at hd
              exact ⟨hd.symm, hel⟩
            · intro n hn
              simp at hn
        · unfold distinctKeys
          simp only [List.map_append, List.map_cons, List.map_nil]
          rw [List.pairwise_append]
          refine ⟨hD, by simp, ?_⟩
          intro a ha bkey hb
          have hbk : bkey = UKey.real (dedupKey r) := by simpa using hb
          rw [hbk]
          intro hcontra
          exact assocFindNoneNotMem hfind (hcontra ▸ ha)
        · unfold anonBound
          simp only [List.map_append, List.map_cons, List.map_nil]
          intro k hk n hn
          rcases List.mem_append.mp hk with h1 | h1
          · exact Nat.lt_of_lt_of_le (hA k h1 n hn) (by omega)
          · have : k = UKey.real (dedupKey r) := by simpa using h1
            rw [this] at hn
            simp at hn
        · exact hItail
    · have hguard : (dedupKey r).player = [] ∨ (dedupKey r).player = sl "NOT YET SUBMITTED" := by
        unfold eligible at hel
        exact not_not.mp hel
      have hstep : dedupStep st (i, r) = st ++ [(UKey.anon i, r)] := by
        unfold dedupStep
        rw [if_pos hguard]
      rw [hstep]
      apply ih _ (i + 1)
      · intro p hp
        rcases List.mem_append.mp hp with hold | hnew
        · exact hWK p hold
        · have hpv : p = (UKey.anon i, r) := by simpa using hnew
          rw [hpv]
          constructor
          · intro d hd
            simp at hd
          · intro n _
            exact hel
      · unfold distinctKeys
        simp only [List.map_append, List.map_cons, List.map_nil]
        rw [List.pairwise_append]
        refine ⟨hD, by simp, ?_⟩
        intro a ha bkey hb
        have hbk : bkey = UKey.anon i := by simpa using hb
        rw [hbk]
        intro hcontra
        have := hA a ha i hcontra
        omega
      · unfold anonBound
        simp only [List.map_append, List.map_cons, List.map_nil]
        intro k hk n hn
        rcases List.mem_append.mp hk with h1 | h1
        · exact Nat.lt_of_lt_of_le (hA k h1 n hn) (by omega)
        · have : k = UKey.anon i := by simpa using h1
          rw [this] at hn
          simp only [UKey.anon.injEq] at hn
          omega
      · exact hItail

/-- Second-pass behaviour: when no incoming row's key is already present and
eligible keys are pairwise distinct, the fold just appends every row. -/
theorem dedupFoldFresh : ∀ (pl : List (Nat × Row)) (acc : List (UKey × Row)),
    (∀ q ∈ pl, eligible q.2 → assocFind (UKey.real (dedupKey q.2)) acc = none) →
    List.Pairwise (fun q q2 : Nat × Row => eligible q.2 → eligible q2.2 →
      dedupKey q.2 ≠ dedupKey q2.2) pl →
    pl.foldl dedupStep acc =
      acc ++ pl.map (fun q =>
        (if eligible q.2 then UKey.real (dedupKey q.2) else UKey.anon q.1, q.2)) := by
  intro pl
  induction pl with
  | nil => intro acc _ _; simp
  | cons q tail ih =>
    intro acc hfresh hpair
    obtain ⟨i, r⟩ := q
    rw [List.pairwise_cons] at hpair
    obtain ⟨hhead, htail⟩ := hpair
    simp only [List.foldl_cons]
    by_cases hel : eligible r
    · have hguard : ¬((dedupKey r).player = [] ∨ (dedupKey r).player = sl "NOT YET SUBMITTED") :=
        hel
      have hfind : assocFind (UKey.real (dedupKey r)) acc = none :=
        hfresh (i, r) (List.mem_cons_self _ _) hel
      have hstep : dedupStep acc (i, r) = acc ++ [(UKey.real (dedupKey r), r)] := by
        unfold dedupStep
        rw [if_neg hguard]
        simp only [hfind]
      rw [hstep]
      rw [ih (acc ++ [(UKey.real (dedupKey r), r)]) ?fresh ?pair]
      case fresh =>
        intro q2 hq2 hel2
        rw [assocFindAppend]
        rw [hfresh q2 (List.mem_cons_of_mem _ hq2) hel2]
        have hne : dedupKey r ≠ dedupKey q2.2 := hhead q2 hq2 hel hel2
        have hcond : UKey.real (dedupKey r) ≠ UKey.real (dedupKey q2.2) := by
          intro hc
          exact hne (UKey.real.injEq _ _ ▸ hc)
        simp [assocFind, hcond]
      case pair => exact htail
      simp only [List.map_cons, if_pos hel, List.append_assoc, List.singleton_append]
    · have hguard : (dedupKey r).player = [] ∨ (dedupKey r).player = sl "NOT YET SUBMITTED" := by
        unfold eligible at hel
        exact not_not.mp hel
      have hstep : dedupStep acc (i, r) = acc ++ [(UKey.anon i, r)] := by
        unfold dedupStep
        rw [if_pos hguard]
      rw [hstep]
      rw [ih (acc ++ [(UKey.anon i, r)]) ?fresh2 ?pair2]
      case fresh2 =>
        intro q2 hq2 hel2
        rw [assocFindAppend]
        rw [hfresh q2 (List.mem_cons_of_mem _ hq2) hel2]
        simp [assocFind]
      case pair2 => exact htail
      simp only [List.map_cons, if_neg hel, List.append_assoc, List.singleton_append]

/-- Claim C5: `deduplicate_rows` is idempotent: running it a second time on
its own output returns the output unchanged (already-grouped keys are all
distinct, so the second pass only re-appends and re-sorts). -/
theorem c5_dedup_idempotent (rows : List Row) :
    deduplicateRows (deduplicateRows rows) = deduplicateRows rows := by
  have hunf : ∀ l : List Row, l ≠ [] → deduplicateRows l =
      stableSortRows ((l.enum.foldl dedupStep []).map (fun p => p.2)) := by
    intro l hl
    unfold deduplicateRows
    rw [if_neg hl]
  by_cases hrows : rows = []
  · rw [hrows]
    rfl
  · by_cases hout : deduplicateRows rows = []
    · rw [hout]
      rfl
    · have hinv := dedupFoldInv rows.enum [] 0
        (by intro p hp; simp at hp) (by simp [distinctKeys]) (by intro k hk; simp at hk)
        (incrFromEnumFrom rows 0)
      have hWK := hinv.1
      have hD := hinv.2
      have hout_eq : deduplicateRows rows =
          stableSortRows ((rows.enum.foldl dedupStep []).map (fun p => p.2)) :=
        hunf rows hrows
      have hpairSnd : List.Pairwise
          (fun a b : Row => eligible a → eligible b → dedupKey a ≠ dedupKey b)
          ((rows.enum.foldl dedupStep []).map (fun p => p.2)) := by
        rw [List.pairwise_map]
        have hDp : (rows.enum.foldl dedupStep []).Pairwise (fun p q => p.1 ≠ q.1) := by
          unfold distinctKeys at hD
          exact List.pairwise_map.mp hD
        refine hDp.imp_of_mem ?_
        intro p q hp hq hne hep heq
        have hkp : p.1 = UKey.real (dedupKey p.2) := by
          cases hp1 : p.1 with
          | real d =>
            have hd := (hWK p hp).1 d hp1
            rw [hd.1]
          | anon n => exact absurd hep ((hWK p hp).2 n hp1)
        have hkq : q.1 = UKey.real (dedupKey q.2) := by
          cases hq1 : q.1 with
          | real d =>
            have hd := (hWK q hq).1 d hq1
            rw [hd.1]
          | anon n => exact absurd heq ((hWK q hq).2 n hq1)
        intro hcontra
        apply hne
        rw [hkp, hkq, hcontra]
      have hsym : ∀ {x y : Row},
          (eligible x → eligible y → dedupKey x ≠ dedupKey y) →
          (eligible y → eligible x → dedupKey y ≠ dedupKey x) :=
        fun h hb ha => (h ha hb).symm
      have hpairOut : List.Pairwise
          (fun a b : Row => eligible a → eligible b → dedupKey a ≠ dedupKey b)
          (deduplicateRows rows) := by
        rw [hout_eq]
        exact (List.Perm.pairwise_iff hsym (sortPerm _)).mpr hpairSnd
      have hpairEnum : List.Pairwise
          (fun q q2 : Nat × Row => eligible q.2 → eligible q2.2 →
            dedupKey q.2 ≠ dedupKey q2.2) (deduplicateRows rows).enum := by
        have h0 : List.Pairwise
            (fun a b : Row => eligible a → eligible b → dedupKey a ≠ dedupKey b)
            ((deduplicateRows rows).enum.map Prod.snd) := by
          rw [List.enum_map_snd]
          exact hpairOut
        exact List.pairwise_map.mp h0
      have h2 := dedupFoldFresh (deduplicateRows rows).enum []
        (fun q _ _ => rfl) hpairEnum
      rw [hunf (deduplicateRows rows) hout, h2]
      simp only [List.nil_append, List.map_map]
      have hcomp : ((fun p : UKey × Row => p.2) ∘
          (fun q : Nat × Row =>
            (if eligible q.2 then UKey.real (dedupKey q.2) else UKey.anon q.1, q.2))) =
          (Prod.snd : Nat × Row → Row) := rfl
      rw [hcomp, List.enum_map_snd]
      have hch : List.Chain' rowKeyLe (deduplicateRows rows) := by
        rw [hout_eq]
        exact sortChain _
      exact sortedChainId _ hch

/-!
## Reconciler (`normalize_rows`, claims C1, C2 and C8)

The loop is a fold over the input rows carrying the rolling context
(`last_*` variables), the per-matchup time table, the per-page pending and
carryover maps, and the accumulated output.  `None` context values are
modelled by the empty string (the source only reads them through
`x or ""`-style coalescing, and only stores non-empty values).
-/

/-- Lookup in a string-keyed association map. -/
def mapFindS (m : List (List Char × List Char)) (k : List Char) : Option (List Char) :=
  match m with
  | [] => none
  | p :: rest => if p.1 = k then some p.2 else mapFindS rest k

/-- Insert-or-update in a string-keyed association map. -/
def mapSetS (m : List (List Char × List Char)) (k v : List Char) :
    List (List Char × List Char) :=
  match m with
  | [] => [(k, v)]
  | p :: rest => if p.1 = k then (k, v) :: rest else p :: mapSetS rest k v

/-- Lookup in a page-keyed association map. -/
def mapFindN (m : List (Nat × List Char)) (k : Nat) : Option (List Char) :=
  match m with
  | [] => none
  | p :: rest => if p.1 = k then some p.2 else mapFindN rest k

/-- Insert-or-update in a page-keyed association map. -/
def mapSetN (m : List (Nat × List Char)) (k : Nat) (v : List Char) :
    List (Nat × List Char) :=
  match m with
  | [] => [(k, v)]
  | p :: rest => if p.1 = k then (k, v) :: rest else p :: mapSetN rest k v

/-- Removal from a page-keyed association map (`dict.pop(key, None)`). -/
def mapPopN (m : List (Nat × List Char)) (k : Nat) : List (Nat × List Char) :=
  match m with
  | [] => []
  | p :: rest => if p.1 = k then rest else p :: mapPopN rest k

/-- Rewrite of the last element of a list. -/
def updateLast (l : List Row) (f : Row → Row) : List Row :=
  match l with
  | [] => []
  | [x] => [f x]
  | x :: rest => x :: updateLast rest f

/-- State of the `normalize_rows` loop. -/
structure NRState where
  normalized : List Row
  lastTeam : List Char
  lastGameTime : List Char
  lastRealGameTime : List Char
  lastMatchup : List Char
  gameTimeByMatchup : List (List Char × List Char)
  carryReason : List (Nat × List Char)
  carryTeam : List (Nat × List Char)
  pendReason : List (Nat × List Char)
  pendTeam : List (Nat × List Char)
deriving Repr, DecidableEq

/-- Initial state. -/
def nrInit : NRState := ⟨[], [], [], [], [], [], [], [], [], []⟩

/-- Sentinel ("NOT YET SUBMITTED") branch of the loop body: resolve team,
matchup and time from the row or the rolling context, record a concrete
resolved time, and emit the sentinel row only when a team resolved. -/
def nrSentinel (gameDate : List Char) (st : NRState) (r : Row) : NRState :=
  let teamValue := if pyStrip r.team ≠ [] then pyStrip r.team else st.lastTeam
  let nysMatchup := if pyStrip r.matchup ≠ [] then pyStrip r.matchup else st.lastMatchup
  let matchupKey := pyUpper nysMatchup
  let rt0 := pyStrip r.gameTime
  let rt1 := if rt0 = [] ∨ pyUpper rt0 = sl "TBD" then
      (if matchupKey ≠ [] then (mapFindS st.gameTimeByMatchup matchupKey).getD [] else [])
    else rt0
  let rt2 := if rt1 = [] ∨ pyUpper rt1 = sl "TBD" then
      (if st.lastRealGameTime ≠ [] then st.lastRealGameTime
       else if st.lastGameTime ≠ [] then st.lastGameTime else sl "TBD")
    else rt1
  let gtm2 := if rt2 ≠ [] ∧ pyUpper rt2 ≠ sl "TBD" ∧ matchupKey ≠ [] then
      mapSetS st.gameTimeByMatchup matchupKey rt2
    else st.gameTimeByMatchup
  let lrt2 := if rt2 ≠ [] ∧ pyUpper rt2 ≠ sl "TBD" then rt2 else st.lastRealGameTime
  let norm2 := if teamValue ≠ [] ∧ pyUpper teamValue ≠ sl "NOT YET SUBMITTED" then
      st.normalized ++ [{ gameTime := rt2, matchup := nysMatchup, team := teamValue,
                          player := sl "NOT YET SUBMITTED", status := sl "NOT YET SUBMITTED",
                          reason := sl "NOT YET SUBMITTED", page := r.page,
                          rowIndex := r.rowIndex, gameDate := gameDate }]
    else st.normalized
  { st with normalized := norm2, gameTimeByMatchup := gtm2, lastRealGameTime := lrt2 }

/-- All-empty fragment branch: try to reconstruct a reason from the team and
matchup cells, append it to the previous row of the same page or park it in
the pending map. -/
def nrEmptyFragment (st : NRState) (r : Row) : NRState :=
  let possibleReason := trimReasonNoise (pyStrip (r.team ++ [' '] ++ r.matchup))
  if possibleReason ≠ [] ∧ possibleReason.length ≤ 120 ∧
      looksLikeReasonContinuation possibleReason = true ∧
      looksLikePlayerBlob possibleReason = false then
    match st.normalized.getLast? with
    | some p =>
      if p.page = r.page ∧
          (shouldAppendReason p.reason possibleReason = true ∨
            looksLikeReasonContinuation possibleReason = true) then
        let f := fun q : Row => { q with reason := pyStrip (q.reason ++ [' '] ++ possibleReason) }
        { st with normalized := updateLast st.normalized f }
      else
        { st with pendReason := mapSetN st.pendReason r.page possibleReason,
                  pendTeam := mapSetN st.pendTeam r.page (pyStrip r.team) }
    | none =>
      { st with pendReason := mapSetN st.pendReason r.page possibleReason,
                pendTeam := mapSetN st.pendTeam r.page (pyStrip r.team) }
  else st

/-- Pending-map parking shared by the two exits of the reason-only branch. -/
def nrPendSet (st : NRState) (pageKey : Nat) (reason currentTeam : List Char) : NRState :=
  if looksLikeReasonContinuation reason then
    { st with pendReason := mapSetN st.pendReason pageKey reason,
              pendTeam := mapSetN st.pendTeam pageKey currentTeam }
  else st

/-- Reason-only fragment branch: drop OCR spillover, append to the previous
row of the same page and team, or park the continuation. -/
def nrReasonFragment (st : NRState) (_r : Row)
    (currentTeam reason0 rawReasonOriginal : List Char) (pageKey : Nat) : NRState :=
  let rawReason := normSpaces rawReasonOriginal
  if looksLikePlayerBlob rawReason then st
  else
    let reason := trimReasonNoise reason0
    if reason = [] ∨ looksLikePlayerBlob reason = true then st
    else
      match st.normalized.getLast? with
      | some p =>
        if p.page = pageKey ∧ (currentTeam = [] ∨ p.team = currentTeam) ∧
            shouldAppendReason p.reason reason = true then
          let f := fun q : Row => { q with reason := pyStrip (q.reason ++ [' '] ++ reason) }
          { st with normalized := updateLast st.normalized f }
        else nrPendSet st pageKey reason currentTeam
      | none => nrPendSet st pageKey reason currentTeam

/-- Pending-reason application at the head of the main path. -/
def nrApplyPend (st : NRState) (pageKey : Nat) (reason0 currentTeam : List Char) :
    List Char × NRState :=
  match mapFindN st.pendReason pageKey with
  | none => (reason0, st)
  | some pr =>
    let pt := (mapFindN st.pendTeam pageKey).getD []
    if pr ≠ [] ∧ looksLikePlayerBlob pr = false ∧ (pt = [] ∨ pt = currentTeam) then
      let newReason := if reason0 = [] ∨ startsWithReasonPfx reason0 = false ∨
          looksLikeReasonContinuation reason0 = true then
          trimReasonNoise (pyStrip (pr ++ [' '] ++ reason0))
        else reason0
      (newReason, { st with pendReason := mapPopN st.pendReason pageKey,
                            pendTeam := mapPopN st.pendTeam pageKey })
    else (reason0, st)

/-- Carryover-reason application on the main path. -/
def nrApplyCarry (st : NRState) (pageKey : Nat) (player status reason1 : List Char) :
    List Char × NRState :=
  match mapFindN st.carryReason pageKey with
  | none => (reason1, st)
  | some cr =>
    if cr ≠ [] ∧ looksLikePlayerBlob cr = false ∧ (player ≠ [] ∨ status ≠ []) then
      if reason1 = [] ∨ startsWithReasonPfx reason1 = false ∨
          looksLikeReasonContinuation reason1 = true then
        (trimReasonNoise (pyStrip (cr ++ [' '] ++ reason1)),
          { st with carryReason := mapPopN st.carryReason pageKey,
                    carryTeam := mapPopN st.carryTeam pageKey })
      else (reason1, st)
    else (reason1, st)

/-- Final noise trim, prefix split and spill parking on the main path. -/
def nrApplySpill (st : NRState) (pageKey : Nat) (reason2 rawTeam : List Char) :
    List Char × NRState :=
  if reason2 ≠ [] then
    let reasonA := trimReasonNoise reason2
    let pairS := splitReasonOnPfx reasonA
    let reasonB := trimReasonNoise pairS.1
    let spill := trimReasonNoise pairS.2
    if spill ≠ [] ∧ looksLikePlayerBlob spill = false then
      (reasonB, { st with carryReason := mapSetN st.carryReason pageKey spill,
                          carryTeam := mapSetN st.carryTeam pageKey rawTeam })
    else (reasonB, st)
  else (reason2, st)

/-- Tail of the main path: pending and carryover application, repeated noise
trimming, prefix split with spill parking, and emission. -/
def nrKeyedTail (gameDate : List Char) (st : NRState) (r : Row)
    (player status reason0 rawTeam rowTeam rowMatchup rowTime : List Char)
    (pageKey : Nat) : NRState :=
  let currentTeam := if rowTeam ≠ [] then rowTeam else st.lastTeam
  let pend := nrApplyPend st pageKey reason0 currentTeam
  let carry := nrApplyCarry pend.2 pageKey player status pend.1
  let sp := nrApplySpill carry.2 pageKey carry.1 rawTeam
  let reason3 := sp.1
  let st3 := sp.2
  if player = [] ∧ status = [] ∧ reason3 = [] then st3
  else
    let out := { r with team := rowTeam, matchup := rowMatchup, gameTime := rowTime,
                        player := player, status := status, reason := reason3,
                        gameDate := gameDate }
    { st3 with normalized := st3.normalized ++ [out] }

/-- Inference of a missing game time: per-matchup table first, then the
rolling concrete and non-concrete times, then `"TBD"`. -/
def nrInferTime (st : NRState) (matchupKey : List Char) : List Char :=
  let inferred := if matchupKey ≠ [] then
      (mapFindS st.gameTimeByMatchup matchupKey).getD [] else []
  let inferred2 := if inferred = [] then st.lastRealGameTime else inferred
  let inferred3 := if inferred2 = [] then st.lastGameTime else inferred2
  if inferred3 = [] then sl "TBD" else inferred3

/-- Context update and main path of the loop body. -/
def nrContext (gameDate : List Char) (st : NRState) (r : Row)
    (player status reason0 rawReasonOriginal rawTeam : List Char) : NRState :=
  let rowTeam := if pyStrip r.team = [] then st.lastTeam else r.team
  let lastTeam1 := if pyStrip r.team = [] then st.lastTeam
    else if pyUpper (pyStrip r.team) ≠ sl "NOT YET SUBMITTED" then pyStrip r.team
    else st.lastTeam
  let rowMatchup := if pyStrip r.matchup = [] then st.lastMatchup else r.matchup
  let lastMatchup1 := if pyStrip r.matchup = [] then st.lastMatchup
    else if pyUpper (pyStrip r.matchup) ≠ sl "NOT YET SUBMITTED" then pyStrip r.matchup
    else st.lastMatchup
  let matchupKey := pyUpper (pyStrip rowMatchup)
  let timeValue := pyStrip r.gameTime
  let concrete := timeValue ≠ [] ∧ pyUpper timeValue ≠ sl "TBD" ∧
    pyUpper timeValue ≠ sl "NOT YET SUBMITTED"
  let rowTime := if concrete then timeValue else nrInferTime st matchupKey
  let lastGameTime1 := if concrete then timeValue else st.lastGameTime
  let lastRealGameTime1 := if concrete then timeValue else st.lastRealGameTime
  let gtm1 := if concrete ∧ matchupKey ≠ [] then
      mapSetS st.gameTimeByMatchup matchupKey timeValue
    else st.gameTimeByMatchup
  let st1 := { st with lastTeam := lastTeam1, lastMatchup := lastMatchup1,
                       lastGameTime := lastGameTime1, lastRealGameTime := lastRealGameTime1,
                       gameTimeByMatchup := gtm1 }
  if player = [] ∧ status = [] ∧ reason0 ≠ [] then
    let currentTeam := if rowTeam ≠ [] then rowTeam else lastTeam1
    nrReasonFragment st1 r currentTeam reason0 rawReasonOriginal r.page
  else
    nrKeyedTail gameDate st1 r player status reason0 rawTeam rowTeam rowMatchup rowTime r.page

/-- Status and reason extraction from the player cell (`status_pattern`
search with removal, then `reason_pattern` split or whole-cell prefix
promotion), returning `(player, status, reason)`. -/
def nrExtract (r : Row) : List Char × List Char × List Char :=
  let reason1 := if r.reason ≠ [] then trimReasonNoise r.reason else r.reason
  let ps1 : List Char × List Char :=
    if r.status = [] ∧ r.player ≠ [] then
      match statusPatternSearch r.player with
      | some txt => (pyStripChars (sl " -") (pyReplace r.player txt []), txt)
      | none => (r.player, r.status)
    else (r.player, r.status)
  let pr2 : List Char × List Char :=
    if reason1 = [] ∧ ps1.1 ≠ [] then
      match reasonPatternSearch ps1.1 with
      | some i => (pyStripChars (sl " -") (ps1.1.take i),
          pyStripChars (sl " -") (ps1.1.drop i))
      | none =>
        if reasonPfxList.any (fun p => p.isPrefixOf ps1.1) then ([], ps1.1)
        else (ps1.1, reason1)
    else (ps1.1, reason1)
  (pr2.1, ps1.2, pr2.2)

/-- Loop body of `normalize_rows`. -/
def nrStep (gameDate : List Char) (st : NRState) (r : Row) : NRState :=
  if isHeaderRow (pyStrip r.team) r.player then st
  else if pyUpper (pyStrip r.player) = sl "NOT YET SUBMITTED" ∨
      pyUpper (pyStrip r.status) = sl "NOT YET SUBMITTED" then
    nrSentinel gameDate st r
  else
    let ex := nrExtract r
    if ex.1 = [] ∧ ex.2.1 = [] ∧ ex.2.2 = [] then
      nrEmptyFragment st r
    else
      nrContext gameDate st r ex.1 ex.2.1 ex.2.2 r.reason (pyStrip r.team)

/-- Model of `normalize_rows`. -/
def normalizeRows (rows : List Row) (gameDate : List Char) : List Row :=
  (rows.foldl (nrStep gameDate) nrInit).normalized

/-- Claim C1 (failing input): the reconciler emits this row with reason
`"MIA @ WAS knee soreness"` intact — `trim_reason_noise` only cuts a noise
match whose start is positive, so the matchup blob at position 0 survives —
and that reason matches the matchup noise pattern, hence also the CSV
validator's contamination predicate.  The spec's §4.6 invariant ("every
emitted Row's reason fails all four noise predicates") is therefore not
enforced by the code. -/
theorem c1_contaminated_reason_emitted :
    ∃ r ∈ normalizeRows
      [⟨[], [], sl "Miami Heat", sl "Doe, John", sl "Out",
        sl "MIA @ WAS knee soreness", 1, 0, []⟩] (sl "02/08/2026"),
      (reSearch (matchupBlobM false) (normSpaces r.reason)).isSome = true ∧
        isContaminatedReason r.reason = true := by
  decide

/-- Claim C2 (counterexample): with two concrete times `02:00 (ET)` then
`03:00 (ET)` for the same matchup, the per-matchup table is overwritten, so
the second row keeps `03:00 (ET)` and a following `TBD` row inherits
`03:00 (ET)` — the *latest* concrete time seen, not the first. -/
theorem c2_counterexample :
    (normalizeRows
      [⟨sl "02:00 (ET)", sl "MIA@WAS", sl "Miami Heat", sl "Doe, John", sl "Out",
        sl "Injury/Illness - knee", 1, 1, []⟩,
       ⟨sl "03:00 (ET)", sl "MIA@WAS", sl "Washington Wizards", sl "Roe, Bob", sl "Out",
        sl "Injury/Illness - ankle", 1, 2, []⟩,
       ⟨sl "TBD", sl "MIA@WAS", sl "Washington Wizards", sl "Poe, Cal", sl "Out",
        sl "Injury/Illness - hip", 1, 3, []⟩] (sl "02/08/2026")).map Row.gameTime =
      [sl "02:00 (ET)", sl "03:00 (ET)", sl "03:00 (ET)"] := by
  decide

/-- `dropWhile` is idempotent. -/
theorem dwIdem (p : Char → Bool) : ∀ (l : List Char),
    (l.dropWhile p).dropWhile p = l.dropWhile p := by
  intro l
  induction l with
  | nil => rfl
  | cons c rest ih =>
    by_cases h : p c
    · simp [List.dropWhile_cons, h, ih]
    · simp [List.dropWhile_cons, h]

/-- A prefix of a `dropWhile`-fixed list is itself fixed. -/
theorem dwPrefix {p : Char → Bool} {z x : List Char} (hpre : z <+: x)
    (hx : x.dropWhile p = x) : z.dropWhile p = z := by
  cases z with
  | nil => rfl
  | cons c zs =>
    obtain ⟨t, ht⟩ := hpre
    have hc : p c = false := by
      by_contra hc
      rw [Bool.not_eq_false] at hc
      rw [← ht, List.cons_append, List.dropWhile_cons, if_pos hc] at hx
      have hlen := congrArg List.length hx
      have hle : (List.dropWhile p (zs ++ t)).length ≤ (zs ++ t).length :=
        (List.dropWhile_suffix p).length_le
      simp at hlen hle
      omega
    simp [List.dropWhile_cons, hc]

/-- `str.strip` is idempotent. -/
theorem pyStripIdem (l : List Char) : pyStrip (pyStrip l) = pyStrip l := by
  unfold pyStrip
  set X := l.dropWhile isPySpace with hX
  set Y := X.reverse.dropWhile isPySpace with hY
  have hXfix : X.dropWhile isPySpace = X := dwIdem isPySpace l
  have hZpre : Y.reverse <+: X := by
    rw [← List.reverse_reverse X]
    exact List.reverse_prefix.mpr (List.dropWhile_suffix isPySpace)
  have hZfix : Y.reverse.dropWhile isPySpace = Y.reverse := dwPrefix hZpre hXfix
  rw [hZfix, List.reverse_reverse]
  rw [hY, dwIdem]

/-- Members of `updateLast` are original members or the image of one. -/
theorem updateLastMem {f : Row → Row} : ∀ {l : List Row} {x : Row},
    x ∈ updateLast l f → x ∈ l ∨ ∃ q ∈ l, x = f q := by
  intro l
  induction l with
  | nil => intro x hx; simp [updateLast] at hx
  | cons a rest ih =>
    intro x hx
    cases rest with
    | nil =>
      simp only [updateLast, List.mem_singleton] at hx
      exact Or.inr ⟨a, List.mem_singleton_self a, hx⟩
    | cons b rest2 =>
      rw [show updateLast (a :: b :: rest2) f = a :: updateLast (b :: rest2) f from rfl,
        List.mem_cons] at hx
      rcases hx with hx | hx
      · exact Or.inl (by simp [hx])
      · rcases ih hx with h1 | ⟨q, hq, hfq⟩
        · exact Or.inl (List.mem_cons_of_mem _ h1)
        · exact Or.inr ⟨q, List.mem_cons_of_mem _ hq, hfq⟩

/-- `nrPendSet` does not touch the output. -/
theorem nrPendSetNorm (st : NRState) (pk : Nat) (a b : List Char) :
    (nrPendSet st pk a b).normalized = st.normalized := by
  unfold nrPendSet
  split_ifs <;> rfl

/-- `nrApplyPend` does not touch the output. -/
theorem nrApplyPendNorm (st : NRState) (pk : Nat) (a b : List Char) :
    (nrApplyPend st pk a b).2.normalized = st.normalized := by
  unfold nrApplyPend
  cases mapFindN st.pendReason pk with
  | none => rfl
  | some pr =>
    dsimp only
    split_ifs <;> rfl

/-- `nrApplyCarry` does not touch the output. -/
theorem nrApplyCarryNorm (st : NRState) (pk : Nat) (a b c : List Char) :
    (nrApplyCarry st pk a b c).2.normalized = st.normalized := by
  unfold nrApplyCarry
  cases mapFindN st.carryReason pk with
  | none => rfl
  | some cr =>
    dsimp only
    split_ifs <;> rfl

/-- `nrApplySpill` does not touch the output. -/
theorem nrApplySpillNorm (st : NRState) (pk : Nat) (a b : List Char) :
    (nrApplySpill st pk a b).2.normalized = st.normalized := by
  unfold nrApplySpill
  dsimp only
  split
  · split
    · rfl
    · rfl
  · rfl

/-- Rows in the output of `nrKeyedTail` are previous output rows, or the one
appended row, whose matchup and game time are the passed values and whose
page and row index come from the source row. -/
theorem nrKeyedTailNormMem (gd : List Char) (st : NRState) (r : Row)
    (player status reason0 rawTeam rowTeam rowMatchup rowTime : List Char) (pk : Nat) :
    ∀ x ∈ (nrKeyedTail gd st r player status reason0 rawTeam rowTeam rowMatchup
        rowTime pk).normalized,
      x ∈ st.normalized ∨
        (x.matchup = rowMatchup ∧ x.gameTime = rowTime ∧ x.player = player ∧
          x.status = status ∧ x.team = rowTeam ∧ x.page = r.page ∧
          x.rowIndex = r.rowIndex) := by
  intro x hx
  unfold nrKeyedTail at hx
  dsimp only at hx
  rcases hp : nrApplyPend st pk reason0 (if rowTeam ≠ [] then rowTeam else st.lastTeam)
    with ⟨r1, s1⟩
  rw [hp] at hx
  rcases hc2 : nrApplyCarry s1 pk player status r1 with ⟨r2, s2⟩
  rw [hc2] at hx
  rcases hs3 : nrApplySpill s2 pk r2 rawTeam with ⟨r3, s3⟩
  rw [hs3] at hx
  have hnorm : s3.normalized = st.normalized := by
    have e1 := nrApplyPendNorm st pk reason0 (if rowTeam ≠ [] then rowTeam else st.lastTeam)
    rw [hp] at e1
    have e2 := nrApplyCarryNorm s1 pk player status r1
    rw [hc2] at e2
    have e3 := nrApplySpillNorm s2 pk r2 rawTeam
    rw [hs3] at e3
    rw [e3, e2, e1]
  dsimp only at hx
  split at hx
  · rw [hnorm] at hx
    exact Or.inl hx
  · dsimp only at hx
    rw [hnorm, List.mem_append] at hx
    rcases hx with hx | hx
    · exact Or.inl hx
    · have hxe := List.mem_singleton.mp hx
      rw [hxe]
      exact Or.inr ⟨rfl, rfl, rfl, rfl, rfl, rfl, rfl⟩

/-- Rows in the output of `nrEmptyFragment` are previous output rows, with at
most the reason of the last one rewritten. -/
theorem nrEmptyFragmentNormMem (st : NRState) (r : Row) :
    ∀ x ∈ (nrEmptyFragment st r).normalized,
      x ∈ st.normalized ∨ ∃ q ∈ st.normalized, ∃ z, x = { q with reason := z } := by
  intro x hx
  unfold nrEmptyFragment at hx
  dsimp only at hx
  split at hx
  · split at hx
    · split at hx
      · dsimp only at hx
        rcases updateLastMem hx with h1 | ⟨q, hq, hfq⟩
        · exact Or.inl h1
        · exact Or.inr ⟨q, hq, _, hfq⟩
      · exact Or.inl hx
    · exact Or.inl hx
  · exact Or.inl hx

/-- Rows in the output of `nrReasonFragment` are previous output rows, with
at most the reason of the last one rewritten. -/
theorem nrReasonFragmentNormMem (st : NRState) (r : Row)
    (ct r0 rro : List Char) (pk : Nat) :
    ∀ x ∈ (nrReasonFragment st r ct r0 rro pk).normalized,
      x ∈ st.normalized ∨ ∃ q ∈ st.normalized, ∃ z, x = { q with reason := z } := by
  intro x hx
  unfold nrReasonFragment at hx
  dsimp only at hx
  split at hx
  · exact Or.inl hx
  · split at hx
    · exact Or.inl hx
    · split at hx
      · split at hx
        · dsimp only at hx
          rcases updateLastMem hx with h1 | ⟨q, hq, hfq⟩
          · exact Or.inl h1
          · exact Or.inr ⟨q, hq, _, hfq⟩
        · rw [nrPendSetNorm] at hx
          exact Or.inl hx
      · rw [nrPendSetNorm] at hx
        exact Or.inl hx

/-- Rows in the output of `nrSentinel` are previous output rows or the one
appended sentinel row, whose team is non-empty, whose matchup is the row's
stripped matchup (or the rolling one), and whose game time is the resolved
time. -/
theorem nrSentinelNormMem (gd : List Char) (st : NRState) (r : Row) :
    ∀ x ∈ (nrSentinel gd st r).normalized,
      x ∈ st.normalized ∨
        (x.player = sl "NOT YET SUBMITTED" ∧ x.status = sl "NOT YET SUBMITTED" ∧
          x.reason = sl "NOT YET SUBMITTED" ∧ x.team ≠ [] ∧ x.gameDate = gd ∧
          x.matchup = (if pyStrip r.matchup ≠ [] then pyStrip r.matchup else st.lastMatchup) ∧
          (pyStrip r.gameTime ≠ [] ∧ pyUpper (pyStrip r.gameTime) ≠ sl "TBD" →
            x.gameTime = pyStrip r.gameTime)) := by
  intro x hx
  unfold nrSentinel at hx
  dsimp only at hx
  set nysM := (if pyStrip r.matchup ≠ [] then pyStrip r.matchup else st.lastMatchup) with hnysM
  set tv := (if pyStrip r.team ≠ [] then pyStrip r.team else st.lastTeam) with htv
  set rt1 := (if pyStrip r.gameTime = [] ∨ pyUpper (pyStrip r.gameTime) = sl "TBD" then
      (if pyUpper nysM ≠ [] then (mapFindS st.gameTimeByMatchup (pyUpper nysM)).getD []
       else [])
    else pyStrip r.gameTime) with hrt1
  set rt2 := (if rt1 = [] ∨ pyUpper rt1 = sl "TBD" then
      (if st.lastRealGameTime ≠ [] then st.lastRealGameTime
       else if st.lastGameTime ≠ [] then st.lastGameTime else sl "TBD")
    else rt1) with hrt2
  split at hx
  · rw [List.mem_append] at hx
    rcases hx with hx | hx
    · exact Or.inl hx
    · have hxe := List.mem_singleton.mp hx
      rename_i hguard
      refine Or.inr ?_
      rw [hxe]
      refine ⟨rfl, rfl, rfl, hguard.1, rfl, rfl, ?_⟩
      intro hconc
      have e1 : rt1 = pyStrip r.gameTime := by
        rw [hrt1, if_neg (by push_neg; exact ⟨hconc.1, hconc.2⟩)]
      have e2 : rt2 = pyStrip r.gameTime := by
        rw [hrt2, e1, if_neg (by push_neg; exact ⟨hconc.1, hconc.2⟩)]
      exact e2
  · exact Or.inl hx

/-- A successful `firstTokenMatch` returns a take of the subject at the
length of one of the tokens. -/
theorem firstTokenMatchLen : ∀ (ts : List (List Char)) (s txt : List Char),
    firstTokenMatch ts s = some txt → ∃ t ∈ ts, txt = s.take t.length := by
  intro ts
  induction ts with
  | nil => intro s txt h; simp [firstTokenMatch] at h
  | cons t rest ih =>
    intro s txt h
    simp only [firstTokenMatch] at h
    split at h
    · split at h
      · exact ⟨t, List.mem_cons_self _ _, (Option.some.injEq _ _ ▸ h).symm⟩
      · obtain ⟨t2, ht2, he⟩ := ih s txt h
        exact ⟨t2, List.mem_cons_of_mem _ ht2, he⟩
    · obtain ⟨t2, ht2, he⟩ := ih s txt h
      exact ⟨t2, List.mem_cons_of_mem _ ht2, he⟩

/-- The matched text of `status_pattern` is at most 13 characters (the
longest token, `"Not With Team"`). -/
theorem statusPatternAtLen (prev : Option Char) (s txt : List Char)
    (h : statusPatternAt prev s = some txt) : txt.length ≤ 13 := by
  unfold statusPatternAt at h
  split at h
  · exact absurd h (by simp)
  · obtain ⟨t, ht, he⟩ := firstTokenMatchLen statusTokensList s txt h
    have hlen : ∀ t2 ∈ statusTokensList, t2.length ≤ 13 := by decide
    rw [he]
    calc (s.take t.length).length ≤ t.length := by
          rw [List.length_take]
          omega
      _ ≤ 13 := hlen t ht

/-- Any matched text found by the `status_pattern` scanner is at most 13
characters. -/
theorem statusPatternSearchLen : ∀ (s : List Char) (prev : Option Char) (txt : List Char),
    reSearchTxtAux statusPatternAt prev s = some txt → txt.length ≤ 13 := by
  intro s
  induction s with
  | nil => intro prev txt h; simp [reSearchTxtAux] at h
  | cons c rest ih =>
    intro prev txt h
    simp only [reSearchTxtAux] at h
    split at h
    · rename_i t2 heq
      rw [Option.some.injEq] at h
      exact h ▸ statusPatternAtLen prev (c :: rest) t2 heq
    · exact ih (some c) txt h

/-- Per-row team property of claim C8: a fully sentinel row has a team. -/
def sentinelTeamProp (x : Row) : Prop :=
  x.player = sl "NOT YET SUBMITTED" → x.status = sl "NOT YET SUBMITTED" → x.team ≠ []

/-- The extracted status is never the sentinel marker: an existing status
is kept only when it is not the marker, and an extracted token is at most
13 characters. -/
theorem nrExtractStatusNotNYS (r : Row)
    (h : pyUpper (pyStrip r.status) ≠ sl "NOT YET SUBMITTED") :
    (nrExtract r).2.1 ≠ sl "NOT YET SUBMITTED" := by
  unfold nrExtract
  dsimp only
  by_cases hc : r.status = [] ∧ r.player ≠ []
  · rw [if_pos hc]
    cases hss : statusPatternSearch r.player with
    | none =>
      dsimp only
      rw [hc.1]
      decide
    | some txt =>
      dsimp only
      intro hcontra
      have hlen := statusPatternSearchLen r.player none txt hss
      rw [hcontra] at hlen
      exact absurd hlen (by decide)
  · rw [if_neg hc]
    dsimp only
    intro hcontra
    apply h
    rw [hcontra]
    decide

/-- The main path preserves the C8 team property when the passed status is
not the sentinel marker. -/
theorem nrContextSentinelTeam (gd : List Char) (st : NRState) (r : Row)
    (player status reason0 rro rawTeam : List Char)
    (hst : status ≠ sl "NOT YET SUBMITTED")
    (hP : ∀ x ∈ st.normalized, sentinelTeamProp x) :
    ∀ x ∈ (nrContext gd st r player status reason0 rro rawTeam).normalized,
      sentinelTeamProp x := by
  intro x hx
  unfold nrContext at hx
  dsimp only at hx
  by_cases hfrag : player = [] ∧ status = [] ∧ reason0 ≠ []
  · rw [if_pos hfrag] at hx
    rcases nrReasonFragmentNormMem _ r _ reason0 rro r.page x hx with h1 | ⟨q, hq, z, hz⟩
    · exact hP x h1
    · intro hp hs
      have hteam : x.team = q.team := by rw [hz]
      have hpl : q.player = sl "NOT YET SUBMITTED" := by rw [hz] at hp; exact hp
      have hstq : q.status = sl "NOT YET SUBMITTED" := by rw [hz] at hs; exact hs
      rw [hteam]
      exact hP q hq hpl hstq
  · rw [if_neg hfrag] at hx
    rcases nrKeyedTailNormMem gd _ r player status reason0 rawTeam _ _ _ r.page x hx
      with h1 | ⟨_, _, _, hstx, _, _, _⟩
    · exact hP x h1
    · intro _ hs
      rw [hstx] at hs
      exact absurd hs hst

/-- The loop body preserves the C8 team property. -/
theorem nrStepSentinelTeam (gd : List Char) (st : NRState) (r : Row)
    (hP : ∀ x ∈ st.normalized, sentinelTeamProp x) :
    ∀ x ∈ (nrStep gd st r).normalized, sentinelTeamProp x := by
  intro x hx
  unfold nrStep at hx
  by_cases h1 : isHeaderRow (pyStrip r.team) r.player = true
  · rw [if_pos h1] at hx
    exact hP x hx
  · rw [if_neg h1] at hx
    by_cases h2 : pyUpper (pyStrip r.player) = sl "NOT YET SUBMITTED" ∨
        pyUpper (pyStrip r.status) = sl "NOT YET SUBMITTED"
    · rw [if_pos h2] at hx
      rcases nrSentinelNormMem gd st r x hx with hm1 | ⟨_, _, _, hteam, _, _, _⟩
      · exact hP x hm1
      · intro _ _
        exact hteam
    · rw [if_neg h2] at hx
      dsimp only at hx
      by_cases h3 : (nrExtract r).1 = [] ∧ (nrExtract r).2.1 = [] ∧ (nrExtract r).2.2 = []
      · rw [if_pos h3] at hx
        rcases nrEmptyFragmentNormMem st r x hx with hm1 | ⟨q, hq, z, hz⟩
        · exact hP x hm1
        · intro hp hs
          have hteam : x.team = q.team := by rw [hz]
          have hpl : q.player = sl "NOT YET SUBMITTED" := by rw [hz] at hp; exact hp
          have hstq : q.status = sl "NOT YET SUBMITTED" := by rw [hz] at hs; exact hs
          rw [hteam]
          exact hP q hq hpl hstq
      · rw [if_neg h3] at hx
        push_neg at h2
        exact nrContextSentinelTeam gd st r _ _ _ _ _ (nrExtractStatusNotNYS r h2.2) hP x hx

/-- Claim C8: every fully sentinel output row ("NOT YET SUBMITTED" player,
status and reason) has a non-empty team, resolved from the row or the
rolling context; the sentinel branch only emits under a resolved team, and
the main path never emits a sentinel status. -/
theorem c8_sentinel_rows_have_team (rows : List Row) (gd : List Char) :
    ∀ x ∈ normalizeRows rows gd,
      x.player = sl "NOT YET SUBMITTED" → x.status = sl "NOT YET SUBMITTED" →
      x.reason = sl "NOT YET SUBMITTED" → x.team ≠ [] := by
  have main : ∀ (l : List Row) (st : NRState),
      (∀ x ∈ st.normalized, sentinelTeamProp x) →
      ∀ x ∈ (l.foldl (nrStep gd) st).normalized, sentinelTeamProp x := by
    intro l
    induction l with
    | nil => intro st hP; exact hP
    | cons a tl ih =>
      intro st hP
      simp only [List.foldl_cons]
      exact ih (nrStep gd st a) (nrStepSentinelTeam gd st a hP)
  intro x hx hp hs _
  exact main rows nrInit (by intro y hy; simp [nrInit] at hy) x hx hp hs

/-- Claim C8 (witness): a sentinel row resolving its team from its own cell
is emitted with that team. -/
theorem c8_witness :
    (⟨sl "TBD", sl "MIA@WAS", sl "Miami Heat", sl "NOT YET SUBMITTED",
      sl "NOT YET SUBMITTED", sl "NOT YET SUBMITTED", 1, 0, sl "02/08/2026"⟩ : Row).team ≠
      [] :=
  c8_sentinel_rows_have_team
    [⟨[], sl "MIA@WAS", sl "Miami Heat", sl "NOT YET SUBMITTED", [], [], 1, 0, []⟩]
    (sl "02/08/2026") _ (by decide) (by decide) (by decide) (by decide)

/-- A row reaches the context/recording step of the loop: it is not a
header row, not a sentinel row, and not empty after extraction. -/
def recordsTime (r : Row) : Bool :=
  !(isHeaderRow (pyStrip r.team) r.player) &&
    !(decide (pyUpper (pyStrip r.player) = sl "NOT YET SUBMITTED" ∨
        pyUpper (pyStrip r.status) = sl "NOT YET SUBMITTED")) &&
    !(decide ((nrExtract r).1 = [] ∧ (nrExtract r).2.1 = [] ∧ (nrExtract r).2.2 = []))

/-- A row carries a concrete game time: non-empty and neither `"TBD"` nor
the sentinel marker after strip and upper. -/
def concreteTime (r : Row) : Bool :=
  decide (pyStrip r.gameTime ≠ [] ∧ pyUpper (pyStrip r.gameTime) ≠ sl "TBD" ∧
    pyUpper (pyStrip r.gameTime) ≠ sl "NOT YET SUBMITTED")

/-- One step of the "most recently recorded concrete time" scan. -/
def latestStep (M : List Char) (acc : Option (List Char)) (r : Row) : Option (List Char) :=
  if recordsTime r && concreteTime r && decide (pyUpper (pyStrip r.matchup) = M) then
    some (pyStrip r.gameTime)
  else acc

/-- The most recently recorded concrete stripped game time among the rows
keyed (by their own matchup cell) to `M`, or `none` when no such row
exists. -/
def latestTimeFor (M : List Char) (l : List Row) : Option (List Char) :=
  l.foldl (latestStep M) none

/-- Upper-casing keeps a string non-empty. -/
theorem pyUpperNonempty {l : List Char} (h : l ≠ []) : pyUpper l ≠ [] := by
  cases l with
  | nil => exact absurd rfl h
  | cons c rest => simp [pyUpper]

/-- Reading back the key just set. -/
theorem mapFindSSetSame : ∀ (m : List (List Char × List Char)) (k v : List Char),
    mapFindS (mapSetS m k v) k = some v := by
  intro m
  induction m with
  | nil => intro k v; simp [mapSetS, mapFindS]
  | cons p rest ih =>
    intro k v
    obtain ⟨pk, pv⟩ := p
    by_cases hk : pk = k
    · simp [mapSetS, mapFindS, hk]
    · simp only [mapSetS, hk, if_false, mapFindS]
      exact ih k v

/-- Setting one key does not change another. -/
theorem mapFindSSetOther : ∀ (m : List (List Char × List Char)) (k v k2 : List Char),
    k2 ≠ k → mapFindS (mapSetS m k v) k2 = mapFindS m k2 := by
  intro m
  induction m with
  | nil =>
    intro k v k2 hne
    simp only [mapSetS, mapFindS]
    rw [if_neg (fun hc => hne hc.symm)]
  | cons p rest ih =>
    intro k v k2 hne
    obtain ⟨pk, pv⟩ := p
    by_cases hk : pk = k
    · simp only [mapSetS, mapFindS, hk, if_true]
      rw [if_neg (fun hc => hne hc.symm), if_neg (fun hc => hne hc.symm)]
    · simp only [mapSetS, hk, if_false, mapFindS]
      by_cases h2 : pk = k2
      · rw [if_pos h2, if_pos h2]
      · rw [if_neg h2, if_neg h2]
        exact ih k v k2 hne

/-- Scanning one more row. -/
theorem latestAppendOne (M : List Char) (l : List Row) (r : Row) :
    latestTimeFor M (l ++ [r]) = latestStep M (latestTimeFor M l) r := by
  unfold latestTimeFor
  rw [List.foldl_append]
  rfl

/-- A recording, concrete, matching row overwrites the scan value. -/
theorem latestStepHit {M : List Char} {r : Row} (acc : Option (List Char))
    (h1 : recordsTime r = true) (h2 : concreteTime r = true)
    (h3 : pyUpper (pyStrip r.matchup) = M) :
    latestStep M acc r = some (pyStrip r.gameTime) := by
  unfold latestStep
  rw [if_pos]
  simp [h1, h2, h3]

/-- A non-recording row leaves the scan value unchanged. -/
theorem latestStepSkipRec {M : List Char} {r : Row} (acc : Option (List Char))
    (h : recordsTime r = false) : latestStep M acc r = acc := by
  unfold latestStep
  rw [if_neg]
  simp [h]

/-- A non-concrete row leaves the scan value unchanged. -/
theorem latestStepSkipConc {M : List Char} {r : Row} (acc : Option (List Char))
    (h : concreteTime r = false) : latestStep M acc r = acc := by
  unfold latestStep
  rw [if_neg]
  simp [h]

/-- A row of another matchup leaves the scan value unchanged. -/
theorem latestStepSkipKey {M : List Char} {r : Row} (acc : Option (List Char))
    (h : pyUpper (pyStrip r.matchup) ≠ M) : latestStep M acc r = acc := by
  unfold latestStep
  rw [if_neg]
  simp [h]

/-- Recorded times are concrete: non-empty and neither TBD nor the
sentinel marker. -/
theorem latestTimeForSome {M : List Char} : ∀ {l : List Row} {u : List Char},
    latestTimeFor M l = some u →
      u ≠ [] ∧ pyUpper u ≠ sl "TBD" ∧ pyUpper u ≠ sl "NOT YET SUBMITTED" := by
  have main : ∀ (l : List Row) (acc : Option (List Char)),
      (∀ v, acc = some v → v ≠ [] ∧ pyUpper v ≠ sl "TBD" ∧
        pyUpper v ≠ sl "NOT YET SUBMITTED") →
      ∀ u, l.foldl (latestStep M) acc = some u →
        u ≠ [] ∧ pyUpper u ≠ sl "TBD" ∧ pyUpper u ≠ sl "NOT YET SUBMITTED" := by
    intro l
    induction l with
    | nil => intro acc hacc u h; exact hacc u h
    | cons r tl ih =>
      intro acc hacc u h
      rw [List.foldl_cons] at h
      refine ih (latestStep M acc r) ?_ u h
      intro v hv
      unfold latestStep at hv
      split at hv
      · rename_i hcond
        rw [Bool.and_eq_true, Bool.and_eq_true] at hcond
        have hconc := hcond.1.2
        unfold concreteTime at hconc
        rw [decide_eq_true_eq] at hconc
        rw [Option.some.injEq] at hv
        rw [← hv]
        exact hconc
      · exact hacc v hv
  intro l u h
  exact main l none (by intro v hv; exact absurd hv (by simp)) u h

/-- Output rows inherit: every output row comes from an input row `q` at a
definite position, keeps its matchup, and carries the concrete time most
recently recorded for that matchup as of `q`'s processing (or predates any
such recording). -/
def timeInherit (processed : List Row) (x : Row) : Prop :=
  ∃ pfx q rest, processed = pfx ++ q :: rest ∧ q.page = x.page ∧
    q.rowIndex = x.rowIndex ∧ x.matchup = q.matchup ∧
    (latestTimeFor (pyUpper (pyStrip x.matchup)) (pfx ++ [q]) = some x.gameTime ∨
      (concreteTime q = false ∧
        latestTimeFor (pyUpper (pyStrip x.matchup)) (pfx ++ [q]) = none))

/-- Inheritance facts survive later rows. -/
theorem timeInheritExtend {p : List Row} {x : Row} (r : Row) (h : timeInherit p x) :
    timeInherit (p ++ [r]) x := by
  obtain ⟨pfx, q, rest, hsplit, h2, h3, h4, h5⟩ := h
  refine ⟨pfx, q, rest ++ [r], ?_, h2, h3, h4, h5⟩
  rw [hsplit]
  simp

/-- Inheritance facts survive a reason rewrite. -/
theorem timeInheritReason {p : List Row} {q0 : Row} {z : List Char}
    (h : timeInherit p q0) : timeInherit p { q0 with reason := z } := h

/-- `nrPendSet` does not touch the time table. -/
theorem nrPendSetGtm (st : NRState) (pk : Nat) (a b : List Char) :
    (nrPendSet st pk a b).gameTimeByMatchup = st.gameTimeByMatchup := by
  unfold nrPendSet
  split_ifs <;> rfl

/-- `nrApplyPend` does not touch the time table. -/
theorem nrApplyPendGtm (st : NRState) (pk : Nat) (a b : List Char) :
    (nrApplyPend st pk a b).2.gameTimeByMatchup = st.gameTimeByMatchup := by
  unfold nrApplyPend
  cases mapFindN st.pendReason pk with
  | none => rfl
  | some pr =>
    dsimp only
    split_ifs <;> rfl

/-- `nrApplyCarry` does not touch the time table. -/
theorem nrApplyCarryGtm (st : NRState) (pk : Nat) (a b c : List Char) :
    (nrApplyCarry st pk a b c).2.gameTimeByMatchup = st.gameTimeByMatchup := by
  unfold nrApplyCarry
  cases mapFindN st.carryReason pk with
  | none => rfl
  | some cr =>
    dsimp only
    split_ifs <;> rfl

/-- `nrApplySpill` does not touch the time table. -/
theorem nrApplySpillGtm (st : NRState) (pk : Nat) (a b : List Char) :
    (nrApplySpill st pk a b).2.gameTimeByMatchup = st.gameTimeByMatchup := by
  unfold nrApplySpill
  dsimp only
  split
  · split
    · rfl
    · rfl
  · rfl

/-- `nrKeyedTail` does not touch the time table. -/
theorem nrKeyedTailGtm (gd : List Char) (st : NRState) (r : Row)
    (player status reason0 rawTeam rowTeam rowMatchup rowTime : List Char) (pk : Nat) :
    (nrKeyedTail gd st r player status reason0 rawTeam rowTeam rowMatchup
      rowTime pk).gameTimeByMatchup = st.gameTimeByMatchup := by
  unfold nrKeyedTail
  dsimp only
  rcases hp : nrApplyPend st pk reason0 (if rowTeam ≠ [] then rowTeam else st.lastTeam)
    with ⟨r1, s1⟩
  dsimp only
  rcases hc2 : nrApplyCarry s1 pk player status r1 with ⟨r2, s2⟩
  dsimp only
  rcases hs3 : nrApplySpill s2 pk r2 rawTeam with ⟨r3, s3⟩
  dsimp only
  have hgtm : s3.gameTimeByMatchup = st.gameTimeByMatchup := by
    have e1 := nrApplyPendGtm st pk reason0 (if rowTeam ≠ [] then rowTeam else st.lastTeam)
    rw [hp] at e1
    dsimp only at e1
    have e2 := nrApplyCarryGtm s1 pk player status r1
    rw [hc2] at e2
    dsimp only at e2
    have e3 := nrApplySpillGtm s2 pk r2 rawTeam
    rw [hs3] at e3
    dsimp only at e3
    rw [e3, e2, e1]
  split
  · exact hgtm
  · exact hgtm

/-- `nrEmptyFragment` does not touch the time table. -/
theorem nrEmptyFragmentGtm (st : NRState) (r : Row) :
    (nrEmptyFragment st r).gameTimeByMatchup = st.gameTimeByMatchup := by
  unfold nrEmptyFragment
  dsimp only
  split
  · split
    · split
      · rfl
      · rfl
    · rfl
  · rfl

/-- `nrReasonFragment` does not touch the time table. -/
theorem nrReasonFragmentGtm (st : NRState) (r : Row)
    (ct r0 rro : List Char) (pk : Nat) :
    (nrReasonFragment st r ct r0 rro pk).gameTimeByMatchup = st.gameTimeByMatchup := by
  unfold nrReasonFragment
  dsimp only
  split
  · rfl
  · split
    · rfl
    · split
      · split
        · rfl
        · rw [nrPendSetGtm]
      · rw [nrPendSetGtm]

/-- Effect of the main path on the time table: a concrete row records its
stripped time under its matchup key; any other row leaves the table
unchanged. -/
theorem nrContextGtm (gd : List Char) (st : NRState) (r : Row)
    (player status reason0 rro rawTeam : List Char)
    (hmr : pyStrip r.matchup ≠ []) :
    (nrContext gd st r player status reason0 rro rawTeam).gameTimeByMatchup =
      if pyStrip r.gameTime ≠ [] ∧ pyUpper (pyStrip r.gameTime) ≠ sl "TBD" ∧
          pyUpper (pyStrip r.gameTime) ≠ sl "NOT YET SUBMITTED" then
        mapSetS st.gameTimeByMatchup (pyUpper (pyStrip r.matchup)) (pyStrip r.gameTime)
      else st.gameTimeByMatchup := by
  unfold nrContext
  dsimp only
  rw [show (if pyStrip r.matchup = [] then st.lastMatchup else r.matchup) = r.matchup
    from if_neg hmr]
  have hkey : pyUpper (pyStrip r.matchup) ≠ [] := pyUpperNonempty hmr
  split
  · rw [nrReasonFragmentGtm]
    dsimp only
    by_cases hc : pyStrip r.gameTime ≠ [] ∧ pyUpper (pyStrip r.gameTime) ≠ sl "TBD" ∧
        pyUpper (pyStrip r.gameTime) ≠ sl "NOT YET SUBMITTED"
    · rw [if_pos ⟨hc, hkey⟩, if_pos hc]
    · rw [if_neg (fun hcon => hc hcon.1), if_neg hc]
  · rw [nrKeyedTailGtm]
    dsimp only
    by_cases hc : pyStrip r.gameTime ≠ [] ∧ pyUpper (pyStrip r.gameTime) ≠ sl "TBD" ∧
        pyUpper (pyStrip r.gameTime) ≠ sl "NOT YET SUBMITTED"
    · rw [if_pos ⟨hc, hkey⟩, if_pos hc]
    · rw [if_neg (fun hcon => hc hcon.1), if_neg hc]

/-- Rows in the output of the main path: previous rows, a reason rewrite of
a previous row, or the one appended row, which keeps the source row's page,
row index and matchup, and carries its own stripped time when concrete and
the inferred time otherwise. -/
theorem nrContextC2Out (gd : List Char) (st : NRState) (r : Row)
    (player status reason0 rro rawTeam : List Char)
    (hmr : pyStrip r.matchup ≠ []) :
    ∀ x ∈ (nrContext gd st r player status reason0 rro rawTeam).normalized,
      x ∈ st.normalized ∨
        (∃ q ∈ st.normalized, ∃ z, x = { q with reason := z }) ∨
        (x.page = r.page ∧ x.rowIndex = r.rowIndex ∧ x.matchup = r.matchup ∧
          x.gameTime = (if pyStrip r.gameTime ≠ [] ∧
              pyUpper (pyStrip r.gameTime) ≠ sl "TBD" ∧
              pyUpper (pyStrip r.gameTime) ≠ sl "NOT YET SUBMITTED" then
            pyStrip r.gameTime
          else nrInferTime st (pyUpper (pyStrip r.matchup)))) := by
  intro x hx
  unfold nrContext at hx
  dsimp only at hx
  rw [show (if pyStrip r.matchup = [] then st.lastMatchup else r.matchup) = r.matchup
    from if_neg hmr] at hx
  split at hx
  · rcases nrReasonFragmentNormMem _ r _ reason0 rro r.page x hx with h1 | ⟨q, hq, z, hz⟩
    · exact Or.inl h1
    · exact Or.inr (Or.inl ⟨q, hq, z, hz⟩)
  · rcases nrKeyedTailNormMem gd _ r player status reason0 rawTeam _ _ _ r.page x hx
      with h1 | ⟨hmx, htx, _, _, _, hpg, hri⟩
    · exact Or.inl h1
    · exact Or.inr (Or.inr ⟨hpg, hri, hmx, htx⟩)

/-- The inferred time is the table entry when the key is present with a
non-empty value. -/
theorem nrInferTimeFind (st : NRState) (K u : List Char) (hK : K ≠ [])
    (hfind : mapFindS st.gameTimeByMatchup K = some u) (hu : u ≠ []) :
    nrInferTime st K = u := by
  unfold nrInferTime
  dsimp only
  rw [if_pos hK, hfind]
  simp only [Option.getD_some]
  rw [if_neg hu, if_neg hu, if_neg hu]

/-- One loop step preserves the C2 invariant: the time table holds, for
every matchup, the most recently recorded concrete time, and every output
row inherits per `timeInherit`. -/
theorem nrStepC2Inv (gd : List Char) (processed : List Row) (st : NRState) (r : Row)
    (hmr : pyStrip r.matchup ≠ [])
    (hsr : ¬(pyUpper (pyStrip r.player) = sl "NOT YET SUBMITTED" ∨
        pyUpper (pyStrip r.status) = sl "NOT YET SUBMITTED"))
    (hmap : ∀ M, mapFindS st.gameTimeByMatchup M = latestTimeFor M processed)
    (hout : ∀ x ∈ st.normalized, timeInherit processed x) :
    (∀ M, mapFindS (nrStep gd st r).gameTimeByMatchup M =
        latestTimeFor M (processed ++ [r])) ∧
    (∀ x ∈ (nrStep gd st r).normalized, timeInherit (processed ++ [r]) x) := by
  by_cases h1 : isHeaderRow (pyStrip r.team) r.player = true
  · have hstep : nrStep gd st r = st := by
      unfold nrStep
      rw [if_pos h1]
    rw [hstep]
    have hrec : recordsTime r = false := by
      unfold recordsTime
      simp [h1]
    refine ⟨?_, ?_⟩
    · intro M
      rw [latestAppendOne, latestStepSkipRec _ hrec]
      exact hmap M
    · intro x hx
      exact timeInheritExtend r (hout x hx)
  · by_cases h3 : (nrExtract r).1 = [] ∧ (nrExtract r).2.1 = [] ∧ (nrExtract r).2.2 = []
    · have hstep : nrStep gd st r = nrEmptyFragment st r := by
        unfold nrStep
        rw [if_neg h1, if_neg hsr]
        dsimp only
        rw [if_pos h3]
      rw [hstep]
      have hrec : recordsTime r = false := by
        unfold recordsTime
        simp [h3]
      refine ⟨?_, ?_⟩
      · intro M
        rw [nrEmptyFragmentGtm, latestAppendOne, latestStepSkipRec _ hrec]
        exact hmap M
      · intro x hx
        rcases nrEmptyFragmentNormMem st r x hx with hA | ⟨q, hq, z, hz⟩
        · exact timeInheritExtend r (hout x hA)
        · rw [hz]
          exact timeInheritExtend r (timeInheritReason (hout q hq))
    · have hstep : nrStep gd st r = nrContext gd st r (nrExtract r).1 (nrExtract r).2.1
          (nrExtract r).2.2 r.reason (pyStrip r.team) := by
        unfold nrStep
        rw [if_neg h1, if_neg hsr]
        dsimp only
        rw [if_neg h3]
      rw [hstep]
      simp only [Bool.not_eq_true] at h1
      have hrec : recordsTime r = true := by
        unfold recordsTime
        simp [h1, hsr, h3]
      refine ⟨?_, ?_⟩
      · intro M
        rw [nrContextGtm gd st r _ _ _ _ _ hmr]
        by_cases hc : pyStrip r.gameTime ≠ [] ∧ pyUpper (pyStrip r.gameTime) ≠ sl "TBD" ∧
            pyUpper (pyStrip r.gameTime) ≠ sl "NOT YET SUBMITTED"
        · rw [if_pos hc]
          have hconc : concreteTime r = true := by
            unfold concreteTime
            exact decide_eq_true hc
          by_cases hM : pyUpper (pyStrip r.matchup) = M
          · rw [hM, mapFindSSetSame, latestAppendOne, latestStepHit _ hrec hconc hM]
          · rw [mapFindSSetOther _ _ _ _ (fun hc2 => hM hc2.symm),
              latestAppendOne, latestStepSkipKey _ hM]
            exact hmap M
        · rw [if_neg hc]
          have hconc : concreteTime r = false := by
            unfold concreteTime
            exact decide_eq_false hc
          rw [latestAppendOne, latestStepSkipConc _ hconc]
          exact hmap M
      · intro x hx
        rcases nrContextC2Out gd st r _ _ _ _ _ hmr x hx
          with hA | ⟨q, hq, z, hz⟩ | ⟨hpg, hri, hmx, htx⟩
        · exact timeInheritExtend r (hout x hA)
        · rw [hz]
          exact timeInheritExtend r (timeInheritReason (hout q hq))
        · refine ⟨processed, r, [], rfl, hpg.symm, hri.symm, hmx, ?_⟩
          rw [hmx, latestAppendOne]
          by_cases hc : pyStrip r.gameTime ≠ [] ∧ pyUpper (pyStrip r.gameTime) ≠ sl "TBD" ∧
              pyUpper (pyStrip r.gameTime) ≠ sl "NOT YET SUBMITTED"
          · left
            have hconc : concreteTime r = true := by
              unfold concreteTime
              exact decide_eq_true hc
            rw [latestStepHit _ hrec hconc rfl, htx, if_pos hc]
          · have hconc : concreteTime r = false := by
              unfold concreteTime
              exact decide_eq_false hc
            rw [latestStepSkipConc _ hconc]
            cases hfind : latestTimeFor (pyUpper (pyStrip r.matchup)) processed with
            | some u =>
              left
              have hu := (latestTimeForSome hfind).1
              have hmfind : mapFindS st.gameTimeByMatchup (pyUpper (pyStrip r.matchup)) =
                  some u := by
                rw [hmap]
                exact hfind
              rw [htx, if_neg hc,
                nrInferTimeFind st _ u (pyUpperNonempty hmr) hmfind hu]
            | none =>
              right
              exact ⟨hconc, rfl⟩

/-- Claim C2 (amended): provided every row has a non-empty matchup cell and
no row is a sentinel row, every output row of the reconciler originates
from an input row `q` at a definite position, keeps `q`'s matchup, and has
as game time the concrete time most recently recorded for that matchup at
`q`'s processing point — its own stripped time when `q` is concrete,
otherwise the latest previously recorded one — unless no concrete time had
been recorded for the matchup by then.  The original claim's "first
concrete time seen" is refuted by `c2_counterexample`: the per-matchup
table is overwritten by every concrete row, so inheritance yields the most
recent, not the first. -/
theorem c2_amended (rows : List Row) (gd : List Char)
    (hm : ∀ r ∈ rows, pyStrip r.matchup ≠ [])
    (hs : ∀ r ∈ rows, ¬(pyUpper (pyStrip r.player) = sl "NOT YET SUBMITTED" ∨
        pyUpper (pyStrip r.status) = sl "NOT YET SUBMITTED")) :
    ∀ x ∈ normalizeRows rows gd,
      ∃ pfx q rest, rows = pfx ++ q :: rest ∧ q.page = x.page ∧
        q.rowIndex = x.rowIndex ∧ x.matchup = q.matchup ∧
        (latestTimeFor (pyUpper (pyStrip x.matchup)) (pfx ++ [q]) = some x.gameTime ∨
          (concreteTime q = false ∧
            latestTimeFor (pyUpper (pyStrip x.matchup)) (pfx ++ [q]) = none)) := by
  have main : ∀ (l : List Row) (processed : List Row) (st : NRState),
      (∀ r ∈ l, pyStrip r.matchup ≠ []) →
      (∀ r ∈ l, ¬(pyUpper (pyStrip r.player) = sl "NOT YET SUBMITTED" ∨
          pyUpper (pyStrip r.status) = sl "NOT YET SUBMITTED")) →
      (∀ M, mapFindS st.gameTimeByMatchup M = latestTimeFor M processed) →
      (∀ x ∈ st.normalized, timeInherit processed x) →
      ∀ x ∈ (l.foldl (nrStep gd) st).normalized, timeInherit (processed ++ l) x := by
    intro l
    induction l with
    | nil =>
      intro processed st _ _ _ hout
      simpa using hout
    | cons a tl ih =>
      intro processed st hm1 hs1 hmap hout
      simp only [List.foldl_cons]
      have hstep := nrStepC2Inv gd processed st a (hm1 a (List.mem_cons_self _ _))
        (hs1 a (List.mem_cons_self _ _)) hmap hout
      have hrest := ih (processed ++ [a]) (nrStep gd st a)
        (fun r hr => hm1 r (List.mem_cons_of_mem _ hr))
        (fun r hr => hs1 r (List.mem_cons_of_mem _ hr))
        hstep.1 hstep.2
      rw [show (processed ++ [a]) ++ tl = processed ++ a :: tl from by simp] at hrest
      exact hrest
  intro x hx
  exact main rows [] nrInit hm hs (fun M => rfl)
    (by intro y hy; simp [nrInit] at hy) x hx

/-- Claim C2 (witness): a `TBD` row following a concrete `02:00 (ET)` row
of the same matchup; the theorem applied to the emitted second row locates
its source row and yields the recorded time `02:00 (ET)` for it. -/
theorem c2_amended_witness :
    ∃ pfx q rest,
      ([⟨sl "02:00 (ET)", sl "MIA@WAS", sl "Miami Heat", sl "Doe, John", sl "Out",
          sl "Injury/Illness - knee", 1, 1, []⟩,
        ⟨sl "TBD", sl "MIA@WAS", sl "Washington Wizards", sl "Poe, Cal", sl "Out",
          sl "Injury/Illness - hip", 1, 3, []⟩] : List Row) = pfx ++ q :: rest ∧
        q.page = 1 ∧ q.rowIndex = 3 ∧ sl "MIA@WAS" = q.matchup ∧
        (latestTimeFor (pyUpper (pyStrip (sl "MIA@WAS"))) (pfx ++ [q]) =
            some (sl "02:00 (ET)") ∨
          (concreteTime q = false ∧
            latestTimeFor (pyUpper (pyStrip (sl "MIA@WAS"))) (pfx ++ [q]) = none)) :=
  c2_amended
    [⟨sl "02:00 (ET)", sl "MIA@WAS", sl "Miami Heat", sl "Doe, John", sl "Out",
        sl "Injury/Illness - knee", 1, 1, []⟩,
      ⟨sl "TBD", sl "MIA@WAS", sl "Washington Wizards", sl "Poe, Cal", sl "Out",
        sl "Injury/Illness - hip", 1, 3, []⟩]
    (sl "02/08/2026") (by decide) (by decide)
    ⟨sl "02:00 (ET)", sl "MIA@WAS", sl "Washington Wizards", sl "Poe, Cal", sl "Out",
      sl "Injury/Illness - hip", 1, 3, sl "02/08/2026"⟩
    (by decide)

end InjuryReport
